import Mathlib

set_option allowUnsafeReducibility true
attribute [semireducible] Rat.mul Rat.inv Rat.div Rat.add Rat.sub Rat.neg

/-!
Shallow embedding of the TrafficSimulator2D core (src/map_utils.py and
src/simulator.py) and proofs about it.

Modelling conventions, used throughout:
* Python floats are idealised as exact rationals (`ℚ`).  Every comparison of
  Euclidean lengths in the source (`v.length() < c`, `d < bd`, ...) is
  translated to the exactly equivalent comparison of squared lengths, which is
  decidable over `ℚ`.  The square root itself (`math.hypot`,
  `Vector2.length`, `Vector2.normalize`) is irrational in general, so the few
  places where a length *value* (not a comparison) flows into the state — edge
  weights produced by `_dist`, the `progress` integration divisor and the lane
  offset — take the square root as an explicit function parameter `sqrtq`;
  no theorem below depends on the values of `sqrtq` except through stated
  hypotheses.
* Python `dict`s are insertion-ordered association lists; `defaultdict(list)`
  key creation by `edges[k].append(v)` is `edAppend`, non-creating reads
  `edges.get(k, [])` are `adjOf`.
* Node ids mix strings (road nodes) and ints (hub ids) exactly as in the
  source; `NodeId` is the tagged union.
-/

namespace TrafficSim

/-- Planar point with exact rational coordinates. -/
abbrev Point := ℚ × ℚ

/-- Componentwise difference of two points (`Vector2` subtraction). -/
def vsub (a b : Point) : Point := (a.1 - b.1, a.2 - b.2)

/-- Dot product of two vectors. -/
def dotp (a b : Point) : ℚ := a.1 * b.1 + a.2 * b.2

/-- Squared Euclidean norm of a vector. -/
def sqNorm (a : Point) : ℚ := a.1 ^ 2 + a.2 ^ 2

/-- Squared Euclidean distance; `_dist a b < c` in the source is the exact
equivalent of `sqDist a b < c ^ 2` for nonnegative `c`. -/
def sqDist (a b : Point) : ℚ := sqNorm (vsub a b)

/-- Decide `a * Real.sqrt E < b` exactly over `ℚ`, for `0 ≤ E`.  Used to
translate the stop-point proximity test of `Car.update`, whose expansion has a
single residual factor `sqrt E`:  for `0 < b` the inequality holds iff `a ≤ 0`
or `a ^ 2 * E < b ^ 2`; for `b ≤ 0` it holds iff `a < 0` and `b ^ 2 < a ^ 2 * E`. -/
def sqrtCmpLt (a b E : ℚ) : Bool :=
  if 0 < b then decide (a ≤ 0) || decide (a ^ 2 * E < b ^ 2)
  else decide (a < 0) && decide (b ^ 2 < a ^ 2 * E)

/-- Python `%` on floats with a positive divisor: `t - c * floor (t / c)`. -/
def pymod (t c : ℚ) : ℚ := t - c * (Rat.floor (t / c) : ℚ)

/-- Node identifiers: strings for road-derived nodes, integers for hubs,
mirroring the mixed key space of the source dictionaries. -/
inductive NodeId where
  | str (s : String)
  | int (n : ℤ)
deriving DecidableEq, Repr

/-- Python `str(node)`: identity on strings, decimal rendering of ints
(as used to build congestion keys in `find_path`). -/
def NodeId.toStr : NodeId → String
  | .str s => s
  | .int n => toString n

/-- First-match lookup in an insertion-ordered association list
(Python `d[k]` / `d.get(k)`). -/
def dictLookup {κ α : Type} [DecidableEq κ] (m : List (κ × α)) (k : κ) : Option α :=
  (m.find? (fun kv => kv.1 = k)).map (fun kv => kv.2)

/-- Python `d[k] = v`: replace the value in place if the key is present,
otherwise append the new key at the end (insertion order preserved). -/
def dictInsert {κ α : Type} [DecidableEq κ] (m : List (κ × α)) (k : κ) (v : α) :
    List (κ × α) :=
  match m with
  | [] => [(k, v)]
  | kv :: rest =>
      if kv.1 = k then (k, v) :: rest else kv :: dictInsert rest k v

/-- Key list of a dict, in insertion order (Python `d.keys()`). -/
def dictKeys {κ α : Type} (m : List (κ × α)) : List κ := m.map (fun kv => kv.1)

/-- Adjacency list type: `(neighbor, weight)` pairs. -/
abbrev Adj := List (NodeId × ℚ)

/-- The `edges` structure of the source: insertion-ordered map from node id to
adjacency list. -/
abbrev EdgeMap := List (NodeId × Adj)

/-- Non-creating read `edges.get(k, [])`. -/
def adjOf (m : EdgeMap) (k : NodeId) : Adj := (dictLookup m k).getD []

/-- Key-creating append `edges[k].append(e)` on a `defaultdict(list)`: extends
the first entry for `k`, or creates the key at the end if absent. -/
def edAppend (m : EdgeMap) (k : NodeId) (e : NodeId × ℚ) : EdgeMap :=
  match m with
  | [] => [(k, [e])]
  | kv :: rest =>
      if kv.1 = k then (kv.1, kv.2 ++ [e]) :: rest else kv :: edAppend rest k e

/-- Road record: `{id, x, y, w, h, type}`; `type` is read with
`r.get('type', 'small')` so it is optional. -/
structure RoadData where
  rid : ℤ
  x : ℚ
  y : ℚ
  w : ℚ
  h : ℚ
  ty : Option String
deriving DecidableEq, Repr

/-- Hub record as read by `build_graph`: `{id, x, y}` (name and rate are only
used by the excluded rendering loop). -/
structure HubData where
  hid : ℤ
  x : ℚ
  y : ℚ
deriving DecidableEq, Repr

/-- Hazard symbol record: `{x, y, type}` with `type` read via `s.get('type')`. -/
structure SymbolData where
  x : ℚ
  y : ℚ
  ty : Option String
deriving DecidableEq, Repr

/-- Light entry of the map document.  `x` and `y` are required
(`data['x']` raises on absence); `green`, `red` and `offset` are read with
`data.get(..., default)` and hence optional. -/
structure LightData where
  x : ℚ
  y : ℚ
  green : Option ℚ
  red : Option ℚ
  offset : Option ℚ
deriving DecidableEq, Repr

/-- A parsed map document: the four collections of the schema. -/
structure MapData where
  roads : List RoadData
  hubs : List HubData
  symbols : List SymbolData
  lights : List LightData
deriving DecidableEq, Repr

/-- The source `load_map_data` is `json.load` alone: it parses the file and
returns the document with no schema validation whatsoever.  Modelled as the
identity on the already-parsed document. -/
def load_map_data (doc : MapData) : MapData := doc

/-- Runtime state of a `TrafficLight` object. -/
structure TrafficLightState where
  x : ℚ
  y : ℚ
  green : ℚ
  red : ℚ
  offset : ℚ
  t : ℚ
deriving DecidableEq, Repr

/-- `TrafficLight.__init__`: required position, and `data.get('green', 6)`,
`data.get('red', 6)`, `data.get('offset', 0)` defaults; the timer starts at the
offset. -/
def TrafficLight.init (d : LightData) : TrafficLightState :=
  { x := d.x, y := d.y
    green := d.green.getD 6
    red := d.red.getD 6
    offset := d.offset.getD 0
    t := d.offset.getD 0 }

/-- `TrafficLight.update`: advance the timer by `dt`. -/
def TrafficLightState.update (lt : TrafficLightState) (dt : ℚ) : TrafficLightState :=
  { lt with t := lt.t + dt }

/-- `TrafficLight.is_green_for(dir_vec)`.  The horizontal test
`abs(dir_vec.x) > abs(dir_vec.y)` is invariant under the positive rescaling
done by `normalize`, so the function is stated on the unnormalised direction. -/
def TrafficLightState.is_green_for (lt : TrafficLightState) (d : Point) : Bool :=
  let cycle := lt.green + lt.red
  let phase := pymod lt.t cycle
  if |d.1| > |d.2| then decide (phase < lt.green) else decide (lt.green ≤ phase)

/-- The `lights` list built by `Simulator.__init__`. -/
def mkLights (m : MapData) : List TrafficLightState :=
  (load_map_data m).lights.map TrafficLight.init

/-- Node id `f"r{rid}_{suffix}"` of a road-derived node. -/
def roadName (rid : ℤ) (suf : String) : NodeId :=
  .str ("r" ++ toString rid ++ "_" ++ suf)

/-- Node id `f"i{a_id}_{b_id}"` of an intersection node. -/
def interName (a b : ℤ) : NodeId :=
  .str ("i" ++ toString a ++ "_" ++ toString b)

/-- The `nodes` dictionary: insertion-ordered map from node id to position. -/
abbrev Nodes := List (NodeId × Point)

/-- Axis-aligned overlap rectangle. -/
structure OverlapRect where
  x : ℚ
  y : ℚ
  w : ℚ
  h : ℚ
deriving DecidableEq, Repr

/-- `_rect_overlap`: the overlap rectangle of two road rectangles, or `none`
when there is no positive-area overlap. -/
def rectOverlap (a b : RoadData) : Option OverlapRect :=
  let x1 := max a.x b.x
  let y1 := max a.y b.y
  let x2 := min (a.x + a.w) (b.x + b.w)
  let y2 := min (a.y + a.h) (b.y + b.h)
  if x1 < x2 ∧ y1 < y2 then some ⟨x1, y1, x2 - x1, y2 - y1⟩ else none

/-- Python `nid.startswith(pre)` on the mixed id space; integer ids never
occur where the source calls it (hubs are added after both uses). -/
def nidStartsWith : NodeId → String → Bool
  | .str s, pre => pre.isPrefixOf s
  | .int _, _ => false

/-- Unordered pairs of a list, in the order of the source's double loop
`for i in range(n): for j in range(i+1, n)`. -/
def allPairs {α : Type} : List α → List (α × α)
  | [] => []
  | x :: xs => xs.map (fun y => (x, y)) ++ allPairs xs

/-- The nearest-candidate scan of the source (`best = None; bd = inf;
if d < bd: ...`), with distances compared exactly via their squares.  Returns
the winning id together with its squared distance, or `none` when there is no
candidate. -/
def nearestNodeIn (nodes : Nodes) (cands : List NodeId) (p : Point) :
    Option (NodeId × ℚ) :=
  cands.foldl
    (fun best nid =>
      let d := sqDist ((dictLookup nodes nid).getD (0, 0)) p
      match best with
      | none => some (nid, d)
      | some b => if d < b.2 then some (nid, d) else best)
    none

/-- Step 1 of `build_graph` for one road: emit the three centerline nodes and
chain them with Euclidean weights (`sqrtq` of the squared distances).  The
`node_roads` table of the source is dead state (never read) and is omitted. -/
def stage1Step (sqrtq : ℚ → ℚ) (acc : Nodes × EdgeMap) (r : RoadData) :
    Nodes × EdgeMap :=
  let cx := r.x + r.w / 2
  let cy := r.y + r.h / 2
  if r.h ≤ r.w then
    let pL : Point := (r.x, cy)
    let pM : Point := (cx, cy)
    let pR : Point := (r.x + r.w, cy)
    let nL := roadName r.rid "L"
    let nM := roadName r.rid "M"
    let nR := roadName r.rid "R"
    let nodes := dictInsert (dictInsert (dictInsert acc.1 nL pL) nM pM) nR pR
    let dLM := sqrtq (sqDist pL pM)
    let dMR := sqrtq (sqDist pM pR)
    let edges :=
      edAppend (edAppend (edAppend (edAppend acc.2 nL (nM, dLM)) nM (nL, dLM))
        nM (nR, dMR)) nR (nM, dMR)
    (nodes, edges)
  else
    let pT : Point := (cx, r.y)
    let pM : Point := (cx, cy)
    let pB : Point := (cx, r.y + r.h)
    let nT := roadName r.rid "T"
    let nM := roadName r.rid "M"
    let nB := roadName r.rid "B"
    let nodes := dictInsert (dictInsert (dictInsert acc.1 nT pT) nM pM) nB pB
    let dTM := sqrtq (sqDist pT pM)
    let dMB := sqrtq (sqDist pM pB)
    let edges :=
      edAppend (edAppend (edAppend (edAppend acc.2 nT (nM, dTM)) nM (nT, dTM))
        nM (nB, dMB)) nB (nM, dMB)
    (nodes, edges)

/-- Step 1 of `build_graph` over all roads. -/
def stage1 (sqrtq : ℚ → ℚ) (roads : List RoadData) : Nodes × EdgeMap :=
  roads.foldl (stage1Step sqrtq) ([], [])

/-- Step 2 of `build_graph` for one road pair: on positive-area overlap,
create the intersection node and connect it to the nearest node of each of the
two roads (node lists recomputed from the keys by name prefix, exactly as the
source's list comprehensions do; `if best_a:` is truth-y for every road node
name, hence the `Option` match). -/
def stage2Step (sqrtq : ℚ → ℚ) (acc : Nodes × EdgeMap) (ab : RoadData × RoadData) :
    Nodes × EdgeMap :=
  match rectOverlap ab.1 ab.2 with
  | none => acc
  | some ov =>
      let ix := ov.x + ov.w / 2
      let iy := ov.y + ov.h / 2
      let inter := interName ab.1.rid ab.2.rid
      let nodes := dictInsert acc.1 inter (ix, iy)
      let preA := "r" ++ toString ab.1.rid ++ "_"
      let preB := "r" ++ toString ab.2.rid ++ "_"
      let roadA := (dictKeys nodes).filter (fun nid => nidStartsWith nid preA)
      let roadB := (dictKeys nodes).filter (fun nid => nidStartsWith nid preB)
      let e1 :=
        match nearestNodeIn nodes roadA (ix, iy) with
        | none => acc.2
        | some bst =>
            edAppend (edAppend acc.2 inter (bst.1, sqrtq bst.2)) bst.1 (inter, sqrtq bst.2)
      let e2 :=
        match nearestNodeIn nodes roadB (ix, iy) with
        | none => e1
        | some bst =>
            edAppend (edAppend e1 inter (bst.1, sqrtq bst.2)) bst.1 (inter, sqrtq bst.2)
      (nodes, e2)

/-- Step 3 of `build_graph` for one node pair: stitch nodes closer than 40
units (squared: 1600) unless the first already lists the second. -/
def stage3Step (sqrtq : ℚ → ℚ) (nodes : Nodes) (edges : EdgeMap)
    (p : NodeId × NodeId) : EdgeMap :=
  let already := (adjOf edges p.1).any (fun nb => nb.1 = p.2)
  if already then edges
  else
    let dSq := sqDist ((dictLookup nodes p.1).getD (0, 0))
      ((dictLookup nodes p.2).getD (0, 0))
    if dSq < 1600 then
      edAppend (edAppend edges p.1 (p.2, sqrtq dSq)) p.2 (p.1, sqrtq dSq)
    else edges

/-- Step 3 of `build_graph` over all pairs of existing nodes. -/
def stage3 (sqrtq : ℚ → ℚ) (nodes : Nodes) (edges : EdgeMap) : EdgeMap :=
  (allPairs (dictKeys nodes)).foldl (stage3Step sqrtq nodes) edges

/-- Step 4 of `build_graph` for one hub: register the hub node, give it an
empty adjacency (`edges[hid] = []`), scan `nodes.items()` for the nearest
other node of any kind (the source's comment claims road nodes are preferred
over hubs, but no such filter is applied), and connect within the snap
distance (`bd <= hub_snap_dist`, squared exactly for the nonnegative snap
distance in use). -/
def stage4Step (sqrtq : ℚ → ℚ) (snap : ℚ) (acc : Nodes × EdgeMap) (h : HubData) :
    Nodes × EdgeMap :=
  let hid := NodeId.int h.hid
  let hp : Point := (h.x, h.y)
  let nodes := dictInsert acc.1 hid hp
  let edges := dictInsert acc.2 hid []
  let cands := (dictKeys nodes).filter (fun nid => decide ¬(nid = hid))
  match nearestNodeIn nodes cands hp with
  | none => (nodes, edges)
  | some bst =>
      if bst.2 ≤ snap ^ 2 then
        (nodes, edAppend (edAppend edges hid (bst.1, sqrtq bst.2)) bst.1 (hid, sqrtq bst.2))
      else (nodes, edges)

/-- `build_graph(mapdata, hub_snap_dist)`: the four construction steps in
source order.  `snap` is 80 at the only call site; `symbols` are read by the
source but unused. -/
def build_graph (sqrtq : ℚ → ℚ) (m : MapData) (snap : ℚ) : Nodes × EdgeMap :=
  let s1 := stage1 sqrtq m.roads
  let s2 := (allPairs m.roads).foldl (stage2Step sqrtq) s1
  let e3 := stage3 sqrtq s2.1 s2.2
  m.hubs.foldl (stage4Step sqrtq snap) (s2.1, e3)

/-- Priority-queue entry `(cost, node, path)` as pushed by `find_path`. -/
abbrev PQEntry := ℚ × NodeId × List NodeId

/-- The heap contents.  Two models of `heapq` are developed below.  `popMin`
pops the leftmost entry of least cost: it totalises Python's tuple comparison,
which on an exact cost tie compares the node ids and raises `TypeError` when
one is an int (hub) and the other a str (road node).  The totalised model is
exact for runs that evaluate no tie comparison (the concrete line-graph and
start-equals-goal runs below perform no comparisons at all).  The faithful
model — `pyHeappush`/`pyHeappop`/`find_path_py` further below — implements
`heapq`'s sift loops with the fallible comparison and surfaces the raise. -/
abbrev PQ := List PQEntry

/-- The `seen` dictionary of `find_path`. -/
abbrev SeenMap := List (NodeId × ℚ)

/-- The optional `traffic_counts` table, keyed by the sorted pair of the
stringified endpoints. -/
abbrev TrafficCounts := List ((String × String) × ℚ)

/-- Lexicographic code-point comparison of character lists: Python's `<` on
strings. -/
def charListLt : List Char → List Char → Bool
  | [], [] => false
  | [], _ :: _ => true
  | _ :: _, [] => false
  | a :: as, b :: bs => if a < b then true else if b < a then false else charListLt as bs

/-- The congestion key `tuple(sorted((str(node), str(nbr))))` (ascending pair
under Python string comparison). -/
def tcKey (a b : NodeId) : String × String :=
  let sa := a.toStr
  let sb := b.toStr
  if charListLt sa.data sb.data then (sa, sb) else (sb, sa)

/-- `traffic_counts.get(key, 0)`. -/
def tcLookup (tc : TrafficCounts) (a b : NodeId) : ℚ :=
  (dictLookup tc (tcKey a b)).getD 0

/-- The routing cost of one edge: geometric weight plus congestion count times
the fixed penalty constant `10.0` (source line `nc = cost + w + t * 10.0`). -/
def edgeCost (w t : ℚ) : ℚ := w + t * 10

/-- Remove the leftmost least-cost entry (the model of `heapq.heappop`). -/
def popMin : PQ → Option (PQEntry × PQ)
  | [] => none
  | e :: rest =>
      match popMin rest with
      | none => some (e, [])
      | some (m, rest2) => if e.1 ≤ m.1 then some (e, rest) else some (m, e :: rest2)

/-- The neighbor loop of `find_path`: push every neighbor whose new cost beats
its `seen` entry (or that has none). -/
def pushNeighbors (tc : TrafficCounts) (node : NodeId) (cost : ℚ)
    (path : List NodeId) (seen : SeenMap) (pq : PQ) (adj : Adj) : PQ :=
  adj.foldl
    (fun acc nb =>
      let nc := cost + edgeCost nb.2 (tcLookup tc node nb.1)
      let push :=
        match dictLookup seen nb.1 with
        | none => true
        | some v => decide (nc < v)
      if push then acc ++ [(nc, nb.1, path ++ [nb.1])] else acc)
    pq

/-- The `while pq:` loop of `find_path`, with explicit fuel.  `none` means the
fuel ran out (the source would still be looping); `some none` is the source's
final `return None` (unreachable); `some (some p)` is a found path. -/
def findPathAux (edges : EdgeMap) (goal : NodeId) (tc : TrafficCounts) :
    Nat → PQ → SeenMap → Option (Option (List NodeId))
  | 0, _, _ => none
  | fuel + 1, pq, seen =>
      match popMin pq with
      | none => some none
      | some ((cost, node, path), pq2) =>
          if node = goal then some (some path)
          else
            let skip :=
              match dictLookup seen node with
              | some sc => decide (sc ≤ cost)
              | none => false
            if skip then findPathAux edges goal tc fuel pq2 seen
            else
              let seen2 := dictInsert seen node cost
              findPathAux edges goal tc fuel
                (pushNeighbors tc node cost path seen2 pq2 (adjOf edges node)) seen2

/-- `find_path(edges, start_id, goal_id, traffic_counts)`.  A `None`
congestion table at the call sites is the empty list here. -/
def find_path (edges : EdgeMap) (start goal : NodeId) (tc : TrafficCounts)
    (fuel : Nat) : Option (Option (List NodeId)) :=
  if (dictLookup edges start).isNone ∨ (dictLookup edges goal).isNone then some none
  else findPathAux edges goal tc fuel [(0, start, [start])] []

/-- Runtime state of a `Car` object.  Python object identity of cars is
modelled by the numeric `cid` (the `self.id` field), unique by construction
(`next_car_id` increments); the reservation target holds the index of the
light in the simulator's `lights` list, modelling the object reference. -/
structure CarState where
  path : List NodeId
  edge_idx : Nat
  progress : ℚ
  speed : ℚ
  radius : ℚ
  finished : Bool
  intersection_target : Option Nat
  pos : Point
  cid : Nat
deriving DecidableEq, Repr

/-- `Car.__init__`: `random.uniform(-15, 15)` is passed in as the explicit
sample `rand`.  The position lookup `self.nodes[self.path[0]]` cannot fail at
the call site (`spawn_car` checks the key first); `getD` stands for the value
it found. -/
def Car.init (path : List NodeId) (nodes : Nodes) (cid : Nat) (rand : ℚ) :
    CarState :=
  { path := path
    edge_idx := 0
    progress := 0
    speed := 80 + rand
    radius := 6
    finished := false
    intersection_target := none
    cid := cid
    pos :=
      match path with
      | [] => (0, 0)
      | p0 :: _ => (dictLookup nodes p0).getD (0, 0) }

/-- The simulator fields read and written by the operations under proof.  The
rendering and event-loop fields are excluded collaborators. -/
structure SimState where
  nodes : Nodes
  edges : EdgeMap
  lights : List TrafficLightState
  symbols : List SymbolData
  roads : List RoadData
  cars : List CarState
  next_car_id : Nat
  occupied : List (Nat × Nat)
deriving Repr

/-- Substring test `sub in hay` on the underlying character lists. -/
def subLst {α : Type} [DecidableEq α] (sub : List α) : List α → Bool
  | [] => decide (sub = [])
  | c :: tl => sub.isPrefixOf (c :: tl) || subLst sub tl

/-- Python `sub in hay` for strings. -/
def strContainsSub (hay sub : String) : Bool := subLst sub.data hay.data

/-- `Simulator.get_edge_type`: the `type` of the first road whose node-name
marker occurs in either stringified endpoint, defaulting to `"small"`. -/
def get_edge_type (roads : List RoadData) (edge : NodeId × NodeId) : String :=
  match roads.find? (fun r =>
      let pre := "r" ++ toString r.rid ++ "_"
      strContainsSub edge.1.toStr pre || strContainsSub edge.2.toStr pre) with
  | some r => r.ty.getD "small"
  | none => "small"

/-- The following-behaviour scan of `Car.update`: among active other cars
within 25 units (squared: 625) ahead of the travel direction, the least
distance (squared), or `none` when there is no such leader.  `other is self`
is id inequality under the unique-id convention. -/
def leaderScan (self : CarState) (e : Point) (others : List CarState) :
    Option ℚ :=
  others.foldl
    (fun acc other =>
      if other.cid = self.cid ∨ other.finished then acc
      else
        let rel := vsub other.pos self.pos
        let dSq := sqNorm rel
        if dSq < 625 ∧ dotp rel e > 0 then
          match acc with
          | none => some dSq
          | some m => if dSq < m then some dSq else acc
        else acc)
    none

/-- The target-speed clamp of the following behaviour (source: `max_speed =
self.speed`, zeroed under the hard gap 18, halved under the soft gap 40; both
squared here). -/
def followCap (self : CarState) (e : Point) (others : List CarState) : ℚ :=
  match leaderScan self e others with
  | some m =>
      if m < 324 then 0
      else if m < 1600 then min self.speed (self.speed / 2)
      else self.speed
  | none => self.speed

/-- One iteration of the traffic-light loop of `Car.update`, for the light at
index `i`, threading `(max_speed, occupied, intersection_target)`.  All length
comparisons are squared (80 → 6400, 60 → 3600, 40 → 1600, 35 in the expanded
stop-point test); the direction tests use the unnormalised edge vector, which
is exact since `dir_vec` is a positive rescaling of it. -/
def lightStep (self : CarState) (e : Point) (lt : TrafficLightState) (i : Nat)
    (acc : ℚ × List (Nat × Nat) × Option Nat) : ℚ × List (Nat × Nat) × Option Nat :=
  let ms := acc.1
  let occ := acc.2.1
  let tgt := acc.2.2
  let lp : Point := (lt.x, lt.y)
  let tl := vsub lp self.pos
  let dSq := sqNorm tl
  if dSq < 6400 ∧ dotp tl e > 0 then
    let ms2 :=
      if ¬ lt.is_green_for e then
        if sqrtCmpLt (dSq - 600) (50 * dotp tl e) (sqNorm e) then 0 else ms
      else ms
    let blocked :=
      match dictLookup occ i with
      | some owner => decide ¬(owner = self.cid)
      | none => false
    let ms3 := if blocked = true ∧ dSq < 3600 then 0 else ms2
    if lt.is_green_for e ∧ dSq < 1600 then (ms3, dictInsert occ i self.cid, some i)
    else (ms3, occ, tgt)
  else acc

/-- The traffic-light loop of `Car.update` over the lights list, carrying the
running index that stands for the Python object identity of each light. -/
def lightsLoop (self : CarState) (e : Point) :
    List TrafficLightState → Nat → (ℚ × List (Nat × Nat) × Option Nat) →
    ℚ × List (Nat × Nat) × Option Nat
  | [], _, acc => acc
  | lt :: rest, i, acc => lightsLoop self e rest (i + 1) (lightStep self e lt i acc)

/-- Remove a key (`occupied.pop(lt, None)`). -/
def dictRemove {κ α : Type} [DecidableEq κ] (m : List (κ × α)) (k : κ) :
    List (κ × α) :=
  match m with
  | [] => []
  | kv :: rest => if kv.1 = k then rest else kv :: dictRemove rest k

/-- The reservation-release step of `Car.update`: drop the held light once the
car is more than 60 units (squared: 3600) past it, popping the registry entry
only when this car still owns it. -/
def releaseStep (lights : List TrafficLightState) (self : CarState)
    (occ : List (Nat × Nat)) (tgt : Option Nat) : List (Nat × Nat) × Option Nat :=
  match tgt with
  | none => (occ, tgt)
  | some i =>
      match lights[i]? with
      | none => (occ, tgt)
      | some lt =>
          if sqDist self.pos (lt.x, lt.y) > 3600 then
            (if dictLookup occ i = some self.cid then dictRemove occ i else occ, none)
          else (occ, tgt)

/-- The `no_entry` condition of the symbol loop: some symbol of that type lies
ahead (positive dot with the travel direction) within 50 units (squared:
2500).  When it holds the source returns from `update` on the spot. -/
def noEntryHit (self : CarState) (e : Point) (syms : List SymbolData) : Bool :=
  syms.any (fun s =>
    let sv := vsub (s.x, s.y) self.pos
    s.ty = some "no_entry" && decide (dotp sv e > 0) && decide (sqNorm sv < 2500))

/-- The `slow` caps of the symbol loop: `max_speed = min(max_speed, 40)` for
every slow symbol within 50 units.  In the source the caps interleave with the
no-entry test in one loop; a triggered no-entry discards `max_speed`, and the
iterations are otherwise independent, so testing no-entry first and then
folding every cap is extensionally identical. -/
def slowCaps (self : CarState) (syms : List SymbolData) (ms0 : ℚ) : ℚ :=
  syms.foldl
    (fun ms s =>
      if s.ty = some "slow" ∧ sqDist (s.x, s.y) self.pos < 2500 then min ms 40 else ms)
    ms0

/-- `Car.update(dt)`.  Returns the updated car state together with the updated
reservation registry, or `none` where the source raises (zero-length edge in
`normalize`, missing node key).  The interpolated position
`a + dir_vec * (progress * edge_len)` is written in its exact simplified form
`a + progress • edge_vec`; the lane offset keeps the explicit `sqrtq` factor. -/
def Car.update (sqrtq : ℚ → ℚ) (sim : SimState) (self : CarState) (dt : ℚ) :
    Option (CarState × List (Nat × Nat)) :=
  if self.finished then some (self, sim.occupied)
  else if self.path.length ≤ self.edge_idx + 1 then
    some ({ self with finished := true }, sim.occupied)
  else
    let na := self.path.getD self.edge_idx (NodeId.int 0)
    let nb := self.path.getD (self.edge_idx + 1) (NodeId.int 0)
    match dictLookup sim.nodes na, dictLookup sim.nodes nb with
    | some pa, some pb =>
        let e := vsub pb pa
        if e = ((0 : ℚ), (0 : ℚ)) then none
        else
          let road_type := get_edge_type sim.roads (na, nb)
          let ms1 := followCap self e sim.cars
          let l3 := lightsLoop self e sim.lights 0 (ms1, sim.occupied, self.intersection_target)
          let rel2 := releaseStep sim.lights self l3.2.1 l3.2.2
          if noEntryHit self e sim.symbols then
            some ({ self with intersection_target := rel2.2 }, rel2.1)
          else
            let ms3 := slowCaps self sim.symbols l3.1
            let edge_len := sqrtq (sqNorm e)
            let prog1 := self.progress + ms3 * dt / edge_len
            if 1 ≤ prog1 then
              let idx1 := self.edge_idx + 1
              if self.path.length ≤ idx1 + 1 then
                match self.path.getLast? with
                | none => none
                | some lastn =>
                    match dictLookup sim.nodes lastn with
                    | none => none
                    | some pl =>
                        some ({ self with
                                progress := prog1
                                edge_idx := idx1
                                pos := pl
                                finished := true
                                intersection_target := rel2.2 }, rel2.1)
              else
                match dictLookup sim.nodes (self.path.getD idx1 (NodeId.int 0)) with
                | none => none
                | some pa2 =>
                    some ({ self with
                            progress := 0
                            edge_idx := idx1
                            pos := pa2
                            intersection_target := rel2.2 }, rel2.1)
            else
              let lane : Point :=
                if road_type = "big" then
                  let sgn : ℚ :=
                    if |e.1| ≥ |e.2| then (if e.1 > 0 then 5 else -5)
                    else (if e.2 > 0 then 5 else -5)
                  ((-e.2) * sgn / edge_len, e.1 * sgn / edge_len)
                else (0, 0)
              some ({ self with
                      progress := prog1
                      pos := (pa.1 + prog1 * e.1 + lane.1, pa.2 + prog1 * e.2 + lane.2)
                      intersection_target := rel2.2 }, rel2.1)
    | _, _ => none

/-- `Simulator.spawn_car(start_id, end_id)`: route with no congestion table,
reject falsy or short paths (`if not path or len(path) < 2`), otherwise append
a new car and advance the id counter.  `none` is either an unanswered router
call (fuel) or the `KeyError` the car constructor would raise on a node id
missing from `nodes`. -/
def spawn_car (fuel : Nat) (st : SimState) (start goal : NodeId) (rand : ℚ) :
    Option (Bool × SimState) :=
  match find_path st.edges start goal [] fuel with
  | none => none
  | some none => some (false, st)
  | some (some p) =>
      if p.length < 2 then some (false, st)
      else
        match p with
        | [] => some (false, st)
        | p0 :: _ =>
            match dictLookup st.nodes p0 with
            | none => none
            | some _ =>
                some (true,
                  { st with
                    cars := st.cars ++ [Car.init p st.nodes st.next_car_id rand]
                    next_car_id := st.next_car_id + 1 })

/-! ### Association-list lemmas -/

theorem dictLookup_nil {κ α : Type} [DecidableEq κ] (k : κ) :
    dictLookup ([] : List (κ × α)) k = none := rfl

theorem dictLookup_cons {κ α : Type} [DecidableEq κ] (kv : κ × α)
    (m : List (κ × α)) (k : κ) :
    dictLookup (kv :: m) k = if kv.1 = k then some kv.2 else dictLookup m k := by
  by_cases h : kv.1 = k <;> simp [dictLookup, List.find?, h]

theorem dictLookup_dictInsert {κ α : Type} [DecidableEq κ] (m : List (κ × α))
    (k : κ) (v : α) (x : κ) :
    dictLookup (dictInsert m k v) x = if x = k then some v else dictLookup m x := by
  induction m with
  | nil =>
      by_cases h : x = k
      · subst h
        simp [dictInsert, dictLookup_cons]
      · have h2 : ¬(k = x) := fun hh => h hh.symm
        simp [dictInsert, dictLookup_cons, h, h2, dictLookup_nil]
  | cons kv rest ih =>
      by_cases hk : kv.1 = k
      · by_cases hx : x = k
        · subst hx
          simp [dictInsert, hk, dictLookup_cons]
        · have h2 : ¬(k = x) := fun hh => hx hh.symm
          simp [dictInsert, hk, dictLookup_cons, hx, h2]
      · by_cases hv : kv.1 = x
        · have h2 : ¬(x = k) := fun hh => hk (hv.trans hh)
          simp [dictInsert, hk, dictLookup_cons, hv, h2]
        · by_cases hx : x = k
          · subst hx
            simp [dictInsert, hk, dictLookup_cons, hv, ih]
          · simp [dictInsert, hk, dictLookup_cons, hv, hx, ih]

theorem dictLookup_dictRemove_ne {κ α : Type} [DecidableEq κ] (m : List (κ × α))
    (k x : κ) (h : x ≠ k) :
    dictLookup (dictRemove m k) x = dictLookup m x := by
  induction m with
  | nil => rfl
  | cons kv rest ih =>
      by_cases hk : kv.1 = k
      · subst hk
        simp [dictRemove, dictLookup_cons, Ne.symm h]
      · simp [dictRemove, hk, dictLookup_cons, ih]

theorem dictLookup_edAppend (m : EdgeMap) (k : NodeId) (e : NodeId × ℚ) (x : NodeId) :
    dictLookup (edAppend m k e) x =
      if x = k then some (adjOf m k ++ [e]) else dictLookup m x := by
  induction m with
  | nil =>
      by_cases h : x = k
      · subst h
        simp [edAppend, dictLookup_cons, adjOf, dictLookup_nil]
      · have h2 : ¬(k = x) := fun hh => h hh.symm
        simp [edAppend, dictLookup_cons, h, h2, dictLookup_nil]
  | cons kv rest ih =>
      by_cases hk : kv.1 = k
      · by_cases hx : x = k
        · subst hx
          simp [edAppend, hk, dictLookup_cons, adjOf]
        · have h2 : ¬(k = x) := fun hh => hx hh.symm
          simp [edAppend, hk, dictLookup_cons, hx, h2]
      · by_cases hv : kv.1 = x
        · have h2 : ¬(x = k) := fun hh => hk (hv.trans hh)
          simp [edAppend, hk, dictLookup_cons, hv, h2]
        · by_cases hx : x = k
          · subst hx
            simp [edAppend, hk, dictLookup_cons, hv, ih, adjOf]
          · simp [edAppend, hk, dictLookup_cons, hv, hx, ih]

theorem adjOf_edAppend (m : EdgeMap) (k : NodeId) (e : NodeId × ℚ) (x : NodeId) :
    adjOf (edAppend m k e) x = if x = k then adjOf m k ++ [e] else adjOf m x := by
  rw [adjOf, dictLookup_edAppend]
  by_cases h : x = k <;> simp [h, adjOf]

theorem mem_adjOf_edAppend {m : EdgeMap} {k : NodeId} {e nb : NodeId × ℚ}
    {x : NodeId} (h : nb ∈ adjOf (edAppend m k e) x) :
    nb ∈ adjOf m x ∨ (x = k ∧ nb = e) := by
  rw [adjOf_edAppend] at h
  by_cases hx : x = k
  · subst hx
    rw [if_pos rfl] at h
    rcases List.mem_append.mp h with h | h
    · exact Or.inl h
    · exact Or.inr ⟨rfl, List.mem_singleton.mp h⟩
  · rw [if_neg hx] at h
    exact Or.inl h

theorem sqNorm_vsub_comm (a b : Point) : sqNorm (vsub a b) = sqNorm (vsub b a) := by
  simp only [sqNorm, vsub]
  ring

/-! ### Claim C5: light phase alternation -/

/-- The light of the claim's concrete scenario (green 6, red 4) at elapsed
time 3. -/
def lightAt3 : TrafficLightState :=
  (TrafficLight.init { x := 0, y := 0, green := some 6, red := some 4, offset := some 0 }).update 3

/-- The same light at elapsed time 7. -/
def lightAt7 : TrafficLightState :=
  (TrafficLight.init { x := 0, y := 0, green := some 6, red := some 4, offset := some 0 }).update 7

/-- C5: for every light and elapsed time, with `phase = t mod (green + red)`,
`is_green_for` is true for a horizontal direction exactly when `phase < green`
and for a vertical direction exactly when `phase ≥ green`, so the two flows
are never simultaneously green; concretely with green 6, red 4 the horizontal
flow is green at elapsed time 3 and the vertical flow at elapsed time 7. -/
theorem claim_C5_phase_alternation :
    (∀ (lt : TrafficLightState) (d : Point), |d.1| > |d.2| →
        (lt.is_green_for d = true ↔ pymod lt.t (lt.green + lt.red) < lt.green))
    ∧ (∀ (lt : TrafficLightState) (d : Point), |d.2| > |d.1| →
        (lt.is_green_for d = true ↔ lt.green ≤ pymod lt.t (lt.green + lt.red)))
    ∧ (∀ (lt : TrafficLightState) (dh dv : Point), |dh.1| > |dh.2| → |dv.2| > |dv.1| →
        ¬(lt.is_green_for dh = true ∧ lt.is_green_for dv = true))
    ∧ (lightAt3.is_green_for (1, 0) = true ∧ lightAt3.is_green_for (0, 1) = false)
    ∧ (lightAt7.is_green_for (1, 0) = false ∧ lightAt7.is_green_for (0, 1) = true) := by
  have hh : ∀ (lt : TrafficLightState) (d : Point), |d.1| > |d.2| →
      (lt.is_green_for d = true ↔ pymod lt.t (lt.green + lt.red) < lt.green) := by
    intro lt d hd
    simp [TrafficLightState.is_green_for, hd]
  have hv : ∀ (lt : TrafficLightState) (d : Point), |d.2| > |d.1| →
      (lt.is_green_for d = true ↔ lt.green ≤ pymod lt.t (lt.green + lt.red)) := by
    intro lt d hd
    have hnot : ¬ (|d.1| > |d.2|) := not_lt.mpr (le_of_lt hd)
    simp [TrafficLightState.is_green_for, hnot]
  refine ⟨hh, hv, ?_, ?_, ?_⟩
  · intro lt dh dv hdh hdv ⟨hgh, hgv⟩
    have h1 := (hh lt dh hdh).mp hgh
    have h2 := (hv lt dv hdv).mp hgv
    exact absurd h1 (not_lt.mpr h2)
  · exact ⟨by decide, by decide⟩
  · exact ⟨by decide, by decide⟩

/-- Witness for C5: the horizontal and vertical characterisations
instantiated on the concrete green-6/red-4 light at elapsed time 3. -/
theorem claim_C5_phase_alternation_witness :
    (lightAt3.is_green_for (1, 0) = true ↔
      pymod lightAt3.t (lightAt3.green + lightAt3.red) < lightAt3.green)
    ∧ (lightAt3.is_green_for (0, 1) = true ↔
      lightAt3.green ≤ pymod lightAt3.t (lightAt3.green + lightAt3.red)) :=
  ⟨claim_C5_phase_alternation.1 lightAt3 (1, 0) (by decide),
   claim_C5_phase_alternation.2.1 lightAt3 (0, 1) (by decide)⟩

/-! ### Claim C10: start equal to goal -/

/-- C10: whenever the start node is a key of the edge map, routing from a node
to itself returns the one-element path immediately (the first popped entry is
the goal), for any congestion table and any positive fuel — even when the
start has an empty adjacency list. -/
theorem claim_C10_self_route (edges : EdgeMap) (s : NodeId) (tc : TrafficCounts)
    (fuel : Nat) (hs : (dictLookup edges s).isSome) (hf : 1 ≤ fuel) :
    find_path edges s s tc fuel = some (some [s]) := by
  obtain ⟨n, rfl⟩ : ∃ n, fuel = n + 1 := by
    cases fuel with
    | zero => omega
    | succ n => exact ⟨n, rfl⟩
  rcases Option.isSome_iff_exists.mp hs with ⟨v, hv⟩
  simp [find_path, hv, findPathAux, popMin]

/-! ### Claim C3: missing light durations are defaulted, not rejected -/

/-- A light entry with no green or red duration (and no offset). -/
def lightNoDur : LightData := { x := 0, y := 0, green := none, red := none, offset := none }

/-- A map document whose only light lacks its required durations. -/
def mapNoDur : MapData := { roads := [], hubs := [], symbols := [], lights := [lightNoDur] }

/-- C3 counterexample: loading a document whose light entry lacks its green
and red durations does not fail — the simulator's light list is built with the
silent defaults green 6, red 6, offset 0. -/
theorem claim_C3_counterexample :
    mkLights (load_map_data mapNoDur) =
      [{ x := 0, y := 0, green := 6, red := 6, offset := 0, t := 0 }] := rfl

/-- C3 amended: load performs no validation (it returns the parsed document as
is), and a light entry lacking its green or red duration is accepted with the
silent defaults green = 6 and red = 6 (and offset defaulting to 0), rather
than failing the load. -/
theorem claim_C3_amended (d : LightData) (hg : d.green = none) (hr : d.red = none) :
    (TrafficLight.init d).green = 6 ∧ (TrafficLight.init d).red = 6 ∧
    (TrafficLight.init d).offset = d.offset.getD 0 ∧
    ∀ m : MapData, load_map_data m = m := by
  refine ⟨?_, ?_, rfl, fun _ => rfl⟩ <;> simp [TrafficLight.init, hg, hr]

/-- Witness for the amended C3 at the concrete duration-less light entry. -/
theorem claim_C3_amended_witness :
    (TrafficLight.init lightNoDur).green = 6 ∧ (TrafficLight.init lightNoDur).red = 6 ∧
    (TrafficLight.init lightNoDur).offset = lightNoDur.offset.getD 0 ∧
    ∀ m : MapData, load_map_data m = m :=
  claim_C3_amended lightNoDur rfl rfl

/-! ### Claim C2: hub snapping can attach to another hub -/

/-- Failing input for C2: two coincident hubs, no roads at all. -/
def hubPairMap : MapData :=
  { roads := [], hubs := [⟨1, 0, 0⟩, ⟨2, 0, 0⟩], symbols := [], lights := [] }

/-- C2: at the failing input — two coincident hubs far from any road-derived
node (here: with no roads at all) — `build_graph` connects the second hub to
the first hub instead of leaving both isolated: the nearest-node scan of the
hub-attachment step has no non-hub filter (contradicting the source's own
comment `prefer road nodes ... over other hubs`).  The identity stands in for
the square root; the only distance taken is 0, where they agree. -/
theorem claim_C2_hub_snaps_to_hub :
    adjOf (build_graph (fun q => q) hubPairMap 80).2 (NodeId.int 2) = [(NodeId.int 1, 0)]
    ∧ adjOf (build_graph (fun q => q) hubPairMap 80).2 (NodeId.int 1) = [(NodeId.int 2, 0)] := by
  constructor <;> rfl

/-! ### Claim C4: router cost on the 3-node line graph -/

/-- The claim's line graph: A–B weight 5, B–C weight 5 (symmetric adjacency,
as `build_graph` would produce). -/
def lineEdges : EdgeMap :=
  [(.str "A", [(.str "B", 5)]),
   (.str "B", [(.str "A", 5), (.str "C", 5)]),
   (.str "C", [(.str "B", 5)])]

/-- Congestion count of 2 on the undirected edge A–B. -/
def tcAB2 : TrafficCounts := [(("A", "B"), 2)]

/-- Walks in an edge map: the node sequences the router's accumulated cost
ranges over (start node first, every consecutive pair backed by an adjacency
entry). -/
inductive Walk (E : EdgeMap) : NodeId → NodeId → List NodeId → Prop where
  | nil (a : NodeId) : Walk E a a [a]
  | cons (a b c : NodeId) (w : ℚ) (p : List NodeId) :
      (b, w) ∈ adjOf E a → Walk E b c p → Walk E a c (a :: p)

/-- Weight of the adjacency entry a step uses (first match, as the unique
entry in the graphs considered). -/
def stepWeight (E : EdgeMap) (a b : NodeId) : ℚ :=
  ((((adjOf E a).find? (fun nb => nb.1 = b)).map (fun nb => nb.2))).getD 0

/-- Total routing cost of a node sequence: the sum over its steps of the
per-edge cost `edgeCost` that `find_path` accumulates. -/
def walkCost (E : EdgeMap) (tc : TrafficCounts) : List NodeId → ℚ
  | a :: b :: rest => edgeCost (stepWeight E a b) (tcLookup tc a b) + walkCost E tc (b :: rest)
  | _ => 0

theorem walk_shape {E : EdgeMap} {b c : NodeId} {p : List NodeId}
    (h : Walk E b c p) : ∃ rest, p = b :: rest := by
  cases h with
  | nil => exact ⟨[], rfl⟩
  | cons a b2 c2 w p2 hmem hw => exact ⟨p2, rfl⟩

theorem lineE_step {a b : NodeId} {w : ℚ} (h : (b, w) ∈ adjOf lineEdges a) :
    w = 5 ∧ stepWeight lineEdges a b = 5 := by
  by_cases hA : a = .str "A"
  · subst hA
    have hb : (b, w) ∈ [((NodeId.str "B"), (5 : ℚ))] := h
    rcases List.mem_singleton.mp hb with hb2
    have hbv : b = .str "B" := congrArg Prod.fst hb2
    have hwv : w = 5 := congrArg Prod.snd hb2
    subst hbv
    exact ⟨hwv, by decide⟩
  · by_cases hB : a = .str "B"
    · subst hB
      have hb : (b, w) ∈ [((NodeId.str "A"), (5 : ℚ)), ((NodeId.str "C"), (5 : ℚ))] := h
      rcases List.mem_cons.mp hb with hb2 | hb3
      · have hbv : b = .str "A" := congrArg Prod.fst hb2
        have hwv : w = 5 := congrArg Prod.snd hb2
        subst hbv
        exact ⟨hwv, by decide⟩
      · rcases List.mem_singleton.mp hb3 with hb4
        have hbv : b = .str "C" := congrArg Prod.fst hb4
        have hwv : w = 5 := congrArg Prod.snd hb4
        subst hbv
        exact ⟨hwv, by decide⟩
    · by_cases hC : a = .str "C"
      · subst hC
        have hb : (b, w) ∈ [((NodeId.str "B"), (5 : ℚ))] := h
        rcases List.mem_singleton.mp hb with hb2
        have hbv : b = .str "B" := congrArg Prod.fst hb2
        have hwv : w = 5 := congrArg Prod.snd hb2
        subst hbv
        exact ⟨hwv, by decide⟩
      · exfalso
        have hnone : adjOf lineEdges a = [] := by
          simp only [lineEdges, adjOf, dictLookup_cons, dictLookup_nil]
          have h1 : ¬(NodeId.str "A" = a) := fun hh => hA hh.symm
          have h2 : ¬(NodeId.str "B" = a) := fun hh => hB hh.symm
          have h3 : ¬(NodeId.str "C" = a) := fun hh => hC hh.symm
          simp [h1, h2, h3]
        rw [hnone] at h
        exact absurd h (List.not_mem_nil _)

theorem lineE_walkCost {a c : NodeId} {p : List NodeId}
    (h : Walk lineEdges a c p) :
    walkCost lineEdges [] p = 5 * ((p.length : ℚ) - 1) := by
  induction h with
  | nil => simp [walkCost]
  | cons a b c w p hmem hw ih =>
      obtain ⟨rest, rfl⟩ := walk_shape hw
      have hsw := (lineE_step hmem).2
      have htc : tcLookup [] a b = 0 := rfl
      simp only [walkCost, hsw, htc, edgeCost, ih, List.length_cons]
      push_cast
      ring

theorem walk_len_pos {E : EdgeMap} {s g : NodeId} {p : List NodeId}
    (h : Walk E s g p) : 1 ≤ p.length := by
  obtain ⟨rest, rfl⟩ := walk_shape h
  simp

theorem walk_len_one {E : EdgeMap} {s g : NodeId} {p : List NodeId}
    (h : Walk E s g p) (hl : p.length = 1) : s = g := by
  cases h with
  | nil => rfl
  | cons a b c w p2 hmem hw =>
      obtain ⟨rest, rfl⟩ := walk_shape hw
      simp at hl

theorem walk_len_two {E : EdgeMap} {s g : NodeId} {p : List NodeId}
    (h : Walk E s g p) (hl : p.length = 2) : ∃ w, (g, w) ∈ adjOf E s := by
  cases h with
  | nil => simp at hl
  | cons a b c w p2 hmem hw =>
      obtain ⟨rest, rfl⟩ := walk_shape hw
      have hl1 : (b :: rest).length = 1 := by simpa using hl
      have hbg := walk_len_one hw hl1
      exact ⟨w, hbg ▸ hmem⟩

theorem lineE_min_cost {p : List NodeId}
    (h : Walk lineEdges (.str "A") (.str "C") p) :
    10 ≤ walkCost lineEdges [] p := by
  have hlen : 3 ≤ p.length := by
    have h1 := walk_len_pos h
    have hne1 : p.length ≠ 1 := by
      intro hl
      exact absurd (walk_len_one h hl) (by decide)
    have hne2 : p.length ≠ 2 := by
      intro hl
      obtain ⟨w, hmem⟩ := walk_len_two h hl
      have hmem2 : ((NodeId.str "C"), w) ∈ [((NodeId.str "B"), (5 : ℚ))] := hmem
      have := congrArg Prod.fst (List.mem_singleton.mp hmem2)
      simp at this
    omega
  rw [lineE_walkCost h]
  have h3 : (3 : ℚ) ≤ (p.length : ℚ) := by exact_mod_cast hlen
  nlinarith

/-- C4: on the line graph A–B (5), B–C (5), `find_path` returns [A, B, C];
that path's accumulated cost is 10 and no walk from A to C costs less (the
per-edge cost being geometric weight plus congestion times the fixed penalty
constant 10); a congestion count of 2 on A–B raises that edge's effective
cost by exactly 2·10, and the congested route is still [A, B, C]. -/
theorem claim_C4_router :
    find_path lineEdges (.str "A") (.str "C") [] 10 =
      some (some [.str "A", .str "B", .str "C"])
    ∧ walkCost lineEdges [] [.str "A", .str "B", .str "C"] = 10
    ∧ (∀ p, Walk lineEdges (.str "A") (.str "C") p → 10 ≤ walkCost lineEdges [] p)
    ∧ (∀ w, edgeCost w 2 = edgeCost w 0 + 2 * 10)
    ∧ tcLookup tcAB2 (.str "A") (.str "B") = 2
    ∧ find_path lineEdges (.str "A") (.str "C") tcAB2 10 =
      some (some [.str "A", .str "B", .str "C"]) := by
  refine ⟨by decide, by decide, fun p h => lineE_min_cost h, fun w => ?_, by decide, by decide⟩
  simp [edgeCost]

/-- Witness for C4: the minimality bound and the congestion increment
instantiated at the concrete returned path. -/
theorem claim_C4_router_witness :
    10 ≤ walkCost lineEdges [] [.str "A", .str "B", .str "C"]
    ∧ edgeCost 5 2 = edgeCost 5 0 + 2 * 10 :=
  ⟨claim_C4_router.2.2.1 _
      (Walk.cons _ (.str "B") _ 5 _ (by decide)
        (Walk.cons _ (.str "C") _ 5 _ (by decide) (Walk.nil _))),
   claim_C4_router.2.2.2.1 5⟩

/-- Witness for C10 on the line graph with one unit of fuel. -/
theorem claim_C10_self_route_witness :
    find_path lineEdges (.str "A") (.str "A") [] 1 = some (some [.str "A"]) :=
  claim_C10_self_route lineEdges (.str "A") [] 1 (by decide) (by decide)

/-! ### Claim C8: a no-entry symbol ahead aborts the whole motion step -/

/-- C8: during the per-tick update of an unfinished vehicle with a remaining
edge (well-formed: both endpoint nodes present, distinct positions), if some
`no_entry` symbol lies ahead of the vehicle — positive dot product with the
travel direction — within its radius, the update completes and leaves
position, progress fraction, edge index and finished flag all unchanged. -/
theorem claim_C8_no_entry_aborts (sqrtq : ℚ → ℚ) (sim : SimState) (self : CarState)
    (dt : ℚ) (pa pb : Point)
    (hnf : self.finished = false)
    (hedge : self.edge_idx + 1 < self.path.length)
    (hpa : dictLookup sim.nodes (self.path.getD self.edge_idx (NodeId.int 0)) = some pa)
    (hpb : dictLookup sim.nodes (self.path.getD (self.edge_idx + 1) (NodeId.int 0)) = some pb)
    (hab : vsub pb pa ≠ ((0 : ℚ), (0 : ℚ)))
    (hsym : ∃ s ∈ sim.symbols, s.ty = some "no_entry" ∧
        dotp (vsub (s.x, s.y) self.pos) (vsub pb pa) > 0 ∧
        sqNorm (vsub (s.x, s.y) self.pos) < 2500) :
    ∃ res, Car.update sqrtq sim self dt = some res ∧
      res.1.pos = self.pos ∧ res.1.progress = self.progress ∧
      res.1.edge_idx = self.edge_idx ∧ res.1.finished = false := by
  have hhit : noEntryHit self (vsub pb pa) sim.symbols = true := by
    obtain ⟨s, hsin, hty, hdot, hdist⟩ := hsym
    unfold noEntryHit
    rw [List.any_eq_true]
    refine ⟨s, hsin, ?_⟩
    simp [hty, hdot, hdist]
  have hlen : ¬(self.path.length ≤ self.edge_idx + 1) := not_le.mpr hedge
  unfold Car.update
  simp only [hnf, Bool.false_eq_true, if_false, hlen, ite_false, hpa, hpb, if_neg hab, hhit,
    if_true, ite_true]
  exact ⟨_, rfl, rfl, rfl, rfl, rfl⟩

/-- Witness scenario for C8 (and counterexample scenario for C1): a small
two-node map, one car heading right along the x axis. -/
def scnCar : CarState :=
  { path := [.str "P", .str "Q"], edge_idx := 0, progress := 0, speed := 80, radius := 6,
    finished := false, intersection_target := none, pos := (-30, 0), cid := 2 }

/-- Scenario simulator state for C8: a no-entry symbol 10 units ahead of the
car, no lights. -/
def scnSimNoEntry : SimState :=
  { nodes := [(.str "P", (-30, 0)), (.str "Q", (100, 0))], edges := [], lights := [],
    symbols := [⟨10, 0, some "no_entry"⟩], roads := [], cars := [scnCar],
    next_car_id := 3, occupied := [] }

/-- Witness for C8: the concrete no-entry scenario, instantiated through the
theorem. -/
theorem claim_C8_no_entry_aborts_witness :
    ∃ res, Car.update (fun _ => 0) scnSimNoEntry scnCar (1 / 60) = some res ∧
      res.1.pos = scnCar.pos ∧ res.1.progress = scnCar.progress ∧
      res.1.edge_idx = scnCar.edge_idx ∧ res.1.finished = false :=
  claim_C8_no_entry_aborts (fun _ => 0) scnSimNoEntry scnCar (1 / 60) (-30, 0) (100, 0)
    rfl (by decide) rfl rfl (by decide)
    ⟨⟨10, 0, some "no_entry"⟩, by decide, rfl, by decide, by decide⟩

/-! ### Claim C1: reservation acquisition preempts the current holder -/

theorem lightsLoop_nil (self : CarState) (e : Point) (k : Nat)
    (acc : ℚ × List (Nat × Nat) × Option Nat) :
    lightsLoop self e [] k acc = acc := rfl

theorem lightsLoop_cons (self : CarState) (e : Point) (lt : TrafficLightState)
    (rest : List TrafficLightState) (k : Nat)
    (acc : ℚ × List (Nat × Nat) × Option Nat) :
    lightsLoop self e (lt :: rest) k acc =
      lightsLoop self e rest (k + 1) (lightStep self e lt k acc) := rfl

theorem lightStep_ms_zero (self : CarState) (e : Point) (lt : TrafficLightState)
    (i : Nat) (acc : ℚ × List (Nat × Nat) × Option Nat) (h : acc.1 = 0) :
    (lightStep self e lt i acc).1 = 0 := by
  obtain ⟨ms, occ, tgt⟩ := acc
  simp only at h
  subst h
  unfold lightStep
  split_ifs <;> simp <;> split_ifs <;> simp

theorem lightStep_occ_ne (self : CarState) (e : Point) (lt : TrafficLightState)
    {j i : Nat} (hne : j ≠ i) (acc : ℚ × List (Nat × Nat) × Option Nat) :
    dictLookup (lightStep self e lt j acc).2.1 i = dictLookup acc.2.1 i := by
  obtain ⟨ms, occ, tgt⟩ := acc
  have hij : ¬(i = j) := fun hh => hne hh.symm
  unfold lightStep
  split_ifs <;> simp [dictLookup_dictInsert, hij] <;> split_ifs <;>
    simp [dictLookup_dictInsert, hij]

theorem lightStep_tgt_shape (self : CarState) (e : Point) (lt : TrafficLightState)
    (i : Nat) (acc : ℚ × List (Nat × Nat) × Option Nat) :
    (lightStep self e lt i acc).2.2 = acc.2.2 ∨ (lightStep self e lt i acc).2.2 = some i := by
  obtain ⟨ms, occ, tgt⟩ := acc
  unfold lightStep
  split_ifs <;> simp <;> split_ifs <;> simp

theorem lightsLoop_preserve (self : CarState) (e : Point) :
    ∀ (ls : List TrafficLightState) (k : Nat) (acc : ℚ × List (Nat × Nat) × Option Nat)
      (i c : Nat), i < k → acc.1 = 0 → dictLookup acc.2.1 i = some c →
      (lightsLoop self e ls k acc).1 = 0 ∧
      dictLookup (lightsLoop self e ls k acc).2.1 i = some c ∧
      ((lightsLoop self e ls k acc).2.2 = acc.2.2 ∨
        ∃ j, k ≤ j ∧ (lightsLoop self e ls k acc).2.2 = some j) := by
  intro ls
  induction ls with
  | nil =>
      intro k acc i c hik h0 hocc
      exact ⟨h0, hocc, Or.inl rfl⟩
  | cons lt rest ih =>
      intro k acc i c hik h0 hocc
      have hkne : k ≠ i := fun hh => absurd (hh ▸ hik) (lt_irrefl _)
      have h0s := lightStep_ms_zero self e lt k acc h0
      have hoccs : dictLookup (lightStep self e lt k acc).2.1 i = some c :=
        (lightStep_occ_ne self e lt hkne acc).trans hocc
      obtain ⟨r0, r1, r2⟩ := ih (k + 1) (lightStep self e lt k acc) i c
        (Nat.lt_succ_of_lt hik) h0s hoccs
      refine ⟨r0, r1, ?_⟩
      rcases r2 with r2 | ⟨j, hj, hjv⟩
      · rcases lightStep_tgt_shape self e lt k acc with hs | hs
        · exact Or.inl (r2.trans hs)
        · exact Or.inr ⟨k, le_refl _, r2.trans hs⟩
      · exact Or.inr ⟨j, Nat.le_of_succ_le hj, hjv⟩

theorem lightStep_fire (self : CarState) (e : Point) (lt : TrafficLightState)
    (i : Nat) (acc : ℚ × List (Nat × Nat) × Option Nat) (v1 : Nat)
    (hocc : dictLookup acc.2.1 i = some v1) (hne : v1 ≠ self.cid)
    (hgreen : lt.is_green_for e = true)
    (hdot : dotp (vsub (lt.x, lt.y) self.pos) e > 0)
    (hnear : sqNorm (vsub (lt.x, lt.y) self.pos) < 1600) :
    lightStep self e lt i acc = (0, dictInsert acc.2.1 i self.cid, some i) := by
  obtain ⟨ms, occ, tgt⟩ := acc
  simp only at hocc
  have h64 : sqNorm (vsub (lt.x, lt.y) self.pos) < 6400 := by linarith
  have h36 : sqNorm (vsub (lt.x, lt.y) self.pos) < 3600 := by linarith
  unfold lightStep
  simp [h64, hdot, h36, hnear, hgreen, hocc, hne]

theorem lightsLoop_acquire (self : CarState) (e : Point) :
    ∀ (ls : List TrafficLightState) (k : Nat) (acc : ℚ × List (Nat × Nat) × Option Nat)
      (i : Nat) (lt : TrafficLightState) (v1 : Nat),
      ls[i - k]? = some lt → k ≤ i →
      dictLookup acc.2.1 i = some v1 → v1 ≠ self.cid →
      lt.is_green_for e = true →
      dotp (vsub (lt.x, lt.y) self.pos) e > 0 →
      sqNorm (vsub (lt.x, lt.y) self.pos) < 1600 →
      (lightsLoop self e ls k acc).1 = 0 ∧
      dictLookup (lightsLoop self e ls k acc).2.1 i = some self.cid ∧
      (∃ j, (lightsLoop self e ls k acc).2.2 = some j) := by
  intro ls
  induction ls with
  | nil =>
      intro k acc i lt v1 hget
      simp at hget
  | cons lt0 rest ih =>
      intro k acc i lt v1 hget hki hocc hne hgreen hdot hnear
      by_cases hk : k = i
      · subst hk
        have h0 : k - k = 0 := Nat.sub_self k
        rw [h0] at hget
        have hlt0 : lt0 = lt := by
          simpa using hget
        subst hlt0
        rw [lightsLoop_cons]
        rw [lightStep_fire self e lt0 k acc v1 hocc hne hgreen hdot hnear]
        have hins : dictLookup (dictInsert acc.2.1 k self.cid) k = some self.cid := by
          rw [dictLookup_dictInsert]
          simp
        obtain ⟨r0, r1, r2⟩ := lightsLoop_preserve self e rest (k + 1)
          (0, dictInsert acc.2.1 k self.cid, some k) k self.cid
          (Nat.lt_succ_self k) rfl hins
        refine ⟨r0, r1, ?_⟩
        rcases r2 with r2 | ⟨j, _, hjv⟩
        · exact ⟨k, r2⟩
        · exact ⟨j, hjv⟩
      · have hklt : k < i := lt_of_le_of_ne hki hk
        have hget2 : rest[i - (k + 1)]? = some lt := by
          have hsub : i - k = (i - (k + 1)) + 1 := by omega
          rw [hsub] at hget
          simpa using hget
        have hkne : k ≠ i := hk
        have hoccs : dictLookup (lightStep self e lt0 k acc).2.1 i = some v1 :=
          (lightStep_occ_ne self e lt0 hkne acc).trans hocc
        rw [lightsLoop_cons]
        exact ih (k + 1) (lightStep self e lt0 k acc) i lt v1 hget2 hklt hoccs hne
          hgreen hdot hnear

theorem slowCaps_zero (self : CarState) (syms : List SymbolData) :
    slowCaps self syms 0 = 0 := by
  unfold slowCaps
  induction syms with
  | nil => rfl
  | cons s rest ih =>
      rw [List.foldl_cons]
      split_ifs with h
      · simpa [min_eq_left (by norm_num : (0:ℚ) ≤ 40)] using ih
      · exact ih

theorem releaseStep_keeps (lights : List TrafficLightState) (self : CarState)
    (occ : List (Nat × Nat)) (i j : Nat)
    (hocc : dictLookup occ i = some self.cid)
    (hij : j = i → ∀ lt, lights[i]? = some lt →
      ¬(sqDist self.pos (lt.x, lt.y) > 3600)) :
    dictLookup (releaseStep lights self occ (some j)).1 i = some self.cid := by
  unfold releaseStep
  cases hg : lights[j]? with
  | none => simp [hg, hocc]
  | some lt1 =>
      by_cases hd : sqDist self.pos (lt1.x, lt1.y) > 3600
      · by_cases hji : j = i
        · have hgi : lights[i]? = some lt1 := by rw [← hji]; exact hg
          exact absurd hd (hij hji lt1 hgi)
        · have hine : i ≠ j := fun hh => hji hh.symm
          by_cases ho : dictLookup occ j = some self.cid
          · simp only [hg, hd, ho, if_true, ite_true, if_pos]
            rw [dictLookup_dictRemove_ne occ j i hine]
            exact hocc
          · simp only [hg, hd, ho, if_true, ite_true, if_false, ite_false, if_neg ho]
            exact hocc
      · simp only [hg, if_neg hd]
        exact hocc

/-- The fields of the claim-C1 counterexample: light 0 at the origin with a
green horizontal phase, held by (absent) vehicle id 1, while vehicle 2
approaches from (-30, 0) heading right. -/
def scnSimHeld : SimState :=
  { nodes := [(.str "P", (-30, 0)), (.str "Q", (100, 0))], edges := [],
    lights := [{ x := 0, y := 0, green := 6, red := 4, offset := 0, t := 0 }],
    symbols := [], roads := [], cars := [scnCar], next_car_id := 3, occupied := [(0, 1)] }

/-- C1 counterexample: with the registry mapping light 0 to vehicle 1, vehicle
2's update while the light is green for it and within the acquisition radius
does NOT leave the registry mapping light 0 to vehicle 1 — the acquisition
overwrites it with vehicle 2. -/
theorem claim_C1_counterexample :
    dictLookup scnSimHeld.occupied 0 = some 1 ∧ scnCar.cid = 2 ∧
    (Car.update (fun _ => 0) scnSimHeld scnCar (1 / 60)).map
        (fun res => dictLookup res.2 0) = some (some 2) := by
  refine ⟨rfl, rfl, ?_⟩
  decide

/-- C1 amended: when the registry maps light L (at index `i`) to a different
vehicle and the updating vehicle is unfinished, on a live edge, with L ahead,
green for its direction and within the acquisition radius, the update
completes, the registry afterwards maps L to the updating vehicle (acquire
preempts the holder), and the blocked vehicle still does not advance that tick
(its speed having been clamped to 0 by the reservation check that runs before
the acquisition): progress, edge index and finished flag are unchanged. -/
theorem claim_C1_amended (sqrtq : ℚ → ℚ) (sim : SimState) (self : CarState) (dt : ℚ)
    (i : Nat) (lt : TrafficLightState) (v1 : Nat) (pa pb : Point)
    (hlt : sim.lights[i]? = some lt)
    (hocc : dictLookup sim.occupied i = some v1)
    (hv1 : v1 ≠ self.cid)
    (hnf : self.finished = false)
    (hedge : self.edge_idx + 1 < self.path.length)
    (hpa : dictLookup sim.nodes (self.path.getD self.edge_idx (NodeId.int 0)) = some pa)
    (hpb : dictLookup sim.nodes (self.path.getD (self.edge_idx + 1) (NodeId.int 0)) = some pb)
    (hab : vsub pb pa ≠ ((0 : ℚ), (0 : ℚ)))
    (hgreen : lt.is_green_for (vsub pb pa) = true)
    (hdot : dotp (vsub (lt.x, lt.y) self.pos) (vsub pb pa) > 0)
    (hnear : sqNorm (vsub (lt.x, lt.y) self.pos) < 1600)
    (hprog : self.progress < 1) :
    ∃ res, Car.update sqrtq sim self dt = some res ∧
      dictLookup res.2 i = some self.cid ∧
      res.1.progress = self.progress ∧
      res.1.edge_idx = self.edge_idx ∧
      res.1.finished = false := by
  have hlen : ¬(self.path.length ≤ self.edge_idx + 1) := not_le.mpr hedge
  have hget : sim.lights[i - 0]? = some lt := by simpa using hlt
  obtain ⟨hms, hocc2, j, htgt⟩ :=
    lightsLoop_acquire self (vsub pb pa) sim.lights 0
      (followCap self (vsub pb pa) sim.cars, sim.occupied, self.intersection_target)
      i lt v1 hget (Nat.zero_le i) hocc hv1 hgreen hdot hnear
  have hrel : dictLookup (releaseStep sim.lights self
      (lightsLoop self (vsub pb pa) sim.lights 0
        (followCap self (vsub pb pa) sim.cars, sim.occupied, self.intersection_target)).2.1
      (lightsLoop self (vsub pb pa) sim.lights 0
        (followCap self (vsub pb pa) sim.cars, sim.occupied, self.intersection_target)).2.2).1 i =
      some self.cid := by
    rw [htgt]
    refine releaseStep_keeps sim.lights self _ i j hocc2 ?_
    intro hji lt2 hget2
    rw [hlt] at hget2
    have hlt2 : lt2 = lt := by injection hget2 with hh; exact hh.symm
    rw [hlt2]
    have hcomm : sqDist self.pos (lt.x, lt.y) = sqNorm (vsub (lt.x, lt.y) self.pos) := by
      rw [sqDist, sqNorm_vsub_comm]
    rw [hcomm]
    linarith
  unfold Car.update
  simp only [hnf, Bool.false_eq_true, if_false, hlen, ite_false, hpa, hpb, if_neg hab]
  by_cases hhit : noEntryHit self (vsub pb pa) sim.symbols = true
  · simp only [hhit, if_true, ite_true]
    exact ⟨_, rfl, hrel, rfl, rfl, rfl⟩
  · simp only [hhit, if_false, ite_false, Bool.not_eq_true] at hhit ⊢
    simp only [hhit, Bool.false_eq_true, if_false, ite_false]
    rw [hms, slowCaps_zero]
    have hzero : (0 : ℚ) * dt / sqrtq (sqNorm (vsub pb pa)) = 0 := by
      rw [zero_mul, zero_div]
    rw [hzero, add_zero]
    rw [if_neg (not_le.mpr hprog)]
    exact ⟨_, rfl, hrel, rfl, rfl, rfl⟩

/-- Witness for the amended C1: the concrete held-light scenario. -/
theorem claim_C1_amended_witness :
    ∃ res, Car.update (fun _ => 0) scnSimHeld scnCar (1 / 60) = some res ∧
      dictLookup res.2 0 = some scnCar.cid ∧
      res.1.progress = scnCar.progress ∧
      res.1.edge_idx = scnCar.edge_idx ∧
      res.1.finished = false :=
  claim_C1_amended (fun _ => 0) scnSimHeld scnCar (1 / 60) 0
    { x := 0, y := 0, green := 6, red := 4, offset := 0, t := 0 } 1 (-30, 0) (100, 0)
    rfl rfl (by decide) rfl (by decide) rfl rfl (by decide) (by decide) (by decide)
    (by decide) (by decide)

/-! ### Claim C7: spawn creates a vehicle exactly for routable paths of length at least 2 -/

/-- C7: `spawn_car` appends a new vehicle and advances the id counter exactly
when `find_path` answers with a path of at least two nodes (whose head is a
known node); when the router reports unreachable, or the path is degenerate
(fewer than two nodes), it returns `False` with the vehicle list and counter
unchanged. -/
theorem claim_C7_spawn (st : SimState) (s g : NodeId) (rand : ℚ) (fuel : Nat) :
    (∀ p0 tl pt, find_path st.edges s g [] fuel = some (some (p0 :: tl)) →
      2 ≤ (p0 :: tl).length → dictLookup st.nodes p0 = some pt →
      spawn_car fuel st s g rand =
        some (true, { st with
          cars := st.cars ++ [Car.init (p0 :: tl) st.nodes st.next_car_id rand]
          next_car_id := st.next_car_id + 1 }))
    ∧ (find_path st.edges s g [] fuel = some none →
        spawn_car fuel st s g rand = some (false, st))
    ∧ (∀ p, find_path st.edges s g [] fuel = some (some p) → p.length < 2 →
        spawn_car fuel st s g rand = some (false, st)) := by
  refine ⟨?_, ?_, ?_⟩
  · intro p0 tl pt hfp hlen hlook
    unfold spawn_car
    simp only [hfp]
    rw [if_neg (not_lt.mpr hlen)]
    simp only [hlook]
  · intro hfp
    unfold spawn_car
    simp only [hfp]
  · intro p hfp hlen
    unfold spawn_car
    simp only [hfp]
    rw [if_pos hlen]

/-- A simulator state over the 3-node line graph with no cars yet. -/
def stLine : SimState :=
  { nodes := [(.str "A", (0, 0)), (.str "B", (5, 0)), (.str "C", (10, 0))],
    edges := lineEdges, lights := [], symbols := [], roads := [], cars := [],
    next_car_id := 1, occupied := [] }

/-- Witness for C7: a successful spawn on the line graph. -/
theorem claim_C7_spawn_witness :
    spawn_car 10 stLine (.str "A") (.str "C") 0 =
      some (true, { stLine with
        cars := [Car.init [.str "A", .str "B", .str "C"] stLine.nodes 1 0]
        next_car_id := 2 }) :=
  (claim_C7_spawn stLine (.str "A") (.str "C") 0 10).1 (.str "A") [.str "B", .str "C"]
    (0, 0) (by decide) (by decide) (by decide)

/-! ### Claim C6: the built edge map is symmetric -/

/-- Discriminates road-derived (string) ids from hub (int) ids. -/
def isStrId : NodeId → Bool
  | .str _ => true
  | .int _ => false

/-- Symmetry of an edge map: every listed edge is listed from both ends with
the same weight. -/
def Symm (m : EdgeMap) : Prop :=
  ∀ u v w, (v, w) ∈ adjOf m u → (u, w) ∈ adjOf m v

/-- All adjacency entries have a string neighbor id and a weight satisfying
`Q` (instantiated with a trivial or nonnegativity predicate). -/
def AdjQ (Q : ℚ → Prop) (m : EdgeMap) : Prop :=
  ∀ u v w, (v, w) ∈ adjOf m u → isStrId v = true ∧ Q w

/-- All weights of an edge map satisfy `Q`. -/
def WQ (Q : ℚ → Prop) (m : EdgeMap) : Prop :=
  ∀ u v w, (v, w) ∈ adjOf m u → Q w

theorem adjOf_dictInsert (m : EdgeMap) (k : NodeId) (L : Adj) (x : NodeId) :
    adjOf (dictInsert m k L) x = if x = k then L else adjOf m x := by
  rw [adjOf, dictLookup_dictInsert]
  by_cases h : x = k <;> simp [h, adjOf]

theorem mem_adjOf_edAppend_left {m : EdgeMap} {k x : NodeId} {e nb : NodeId × ℚ}
    (h : nb ∈ adjOf m x) : nb ∈ adjOf (edAppend m k e) x := by
  rw [adjOf_edAppend]
  by_cases hx : x = k
  · subst hx
    rw [if_pos rfl]
    exact List.mem_append_left _ h
  · rwa [if_neg hx]

theorem self_mem_adjOf_edAppend (m : EdgeMap) (k : NodeId) (e : NodeId × ℚ) :
    e ∈ adjOf (edAppend m k e) k := by
  rw [adjOf_edAppend, if_pos rfl]
  exact List.mem_append_right _ (List.mem_singleton.mpr rfl)

theorem symm_edAppend_pair {m : EdgeMap} {u v : NodeId} {w : ℚ} (hs : Symm m) :
    Symm (edAppend (edAppend m u (v, w)) v (u, w)) := by
  intro a b c hmem
  rcases mem_adjOf_edAppend hmem with h1 | ⟨hav, hbw⟩
  · rcases mem_adjOf_edAppend h1 with h2 | ⟨hau, hbw2⟩
    · exact mem_adjOf_edAppend_left (mem_adjOf_edAppend_left (hs a b c h2))
    · have hb : b = v := congrArg Prod.fst hbw2
      have hc : c = w := congrArg Prod.snd hbw2
      rw [hau, hb, hc]
      exact self_mem_adjOf_edAppend _ v (u, w)
  · have hb : b = u := congrArg Prod.fst hbw
    have hc : c = w := congrArg Prod.snd hbw
    rw [hav, hb, hc]
    exact mem_adjOf_edAppend_left (self_mem_adjOf_edAppend m u (v, w))

theorem adjQ_edAppend {Q : ℚ → Prop} {m : EdgeMap} {k v : NodeId} {w : ℚ}
    (h : AdjQ Q m) (hv : isStrId v = true) (hw : Q w) :
    AdjQ Q (edAppend m k (v, w)) := by
  intro a b c hmem
  rcases mem_adjOf_edAppend hmem with h1 | ⟨hak, hbw⟩
  · exact h a b c h1
  · have hb : b = v := congrArg Prod.fst hbw
    have hc : c = w := congrArg Prod.snd hbw
    subst hb
    subst hc
    exact ⟨hv, hw⟩

theorem symm_dictInsert_empty {m : EdgeMap} {k : NodeId} (hs : Symm m)
    (hnm : ∀ u w, (k, w) ∉ adjOf m u) : Symm (dictInsert m k ([] : Adj)) := by
  intro a b c hmem
  rw [adjOf_dictInsert] at hmem
  by_cases ha : a = k
  · rw [if_pos ha] at hmem
    exact absurd hmem (List.not_mem_nil _)
  · rw [if_neg ha] at hmem
    rw [adjOf_dictInsert]
    by_cases hb : b = k
    · subst hb
      exact absurd hmem (hnm a c)
    · rw [if_neg hb]
      exact hs a b c hmem

theorem adjQ_dictInsert_empty {Q : ℚ → Prop} {m : EdgeMap} {k : NodeId}
    (h : AdjQ Q m) : AdjQ Q (dictInsert m k ([] : Adj)) := by
  intro a b c hmem
  rw [adjOf_dictInsert] at hmem
  by_cases ha : a = k
  · rw [if_pos ha] at hmem
    exact absurd hmem (List.not_mem_nil _)
  · rw [if_neg ha] at hmem
    exact h a b c hmem

theorem mem_dictKeys_dictInsert {κ α : Type} [DecidableEq κ] {m : List (κ × α)}
    {k x : κ} {v : α} (h : x ∈ dictKeys (dictInsert m k v)) :
    x = k ∨ x ∈ dictKeys m := by
  induction m with
  | nil => simpa [dictInsert, dictKeys] using h
  | cons kv rest ih =>
      by_cases hk : kv.1 = k
      · simp only [dictInsert, hk, if_pos, ite_true, dictKeys, List.map_cons,
          List.mem_cons] at h ⊢
        rcases h with h | h
        · exact Or.inl h
        · exact Or.inr (Or.inr h)
      · simp only [dictInsert, hk, ite_false, dictKeys, List.map_cons, List.mem_cons] at h ⊢
        rcases h with h | h
        · exact Or.inr (Or.inl h)
        · rcases ih h with h2 | h2
          · exact Or.inl h2
          · exact Or.inr (Or.inr h2)

theorem mem_allPairs {α : Type} :
    ∀ {l : List α} {p : α × α}, p ∈ allPairs l → p.1 ∈ l ∧ p.2 ∈ l := by
  intro l
  induction l with
  | nil => intro p h; simp [allPairs] at h
  | cons x xs ih =>
      intro p h
      simp only [allPairs, List.mem_append, List.mem_map] at h
      rcases h with ⟨y, hy, rfl⟩ | h
      · exact ⟨List.mem_cons_self _ _, List.mem_cons_of_mem _ hy⟩
      · obtain ⟨h1, h2⟩ := ih h
        exact ⟨List.mem_cons_of_mem _ h1, List.mem_cons_of_mem _ h2⟩

theorem nearestNodeIn_mem :
    ∀ (cands : List NodeId) (nodes : Nodes) (acc : Option (NodeId × ℚ)) (p : Point)
      (bst : NodeId × ℚ),
      cands.foldl
        (fun best nid =>
          let d := sqDist ((dictLookup nodes nid).getD (0, 0)) p
          match best with
          | none => some (nid, d)
          | some b => if d < b.2 then some (nid, d) else best)
        acc = some bst →
      bst.1 ∈ cands ∨ acc = some bst := by
  intro cands
  induction cands with
  | nil => intro nodes acc p bst h; exact Or.inr h
  | cons c cs ih =>
      intro nodes acc p bst h
      rw [List.foldl_cons] at h
      rcases ih nodes _ p bst h with h1 | h1
      · exact Or.inl (List.mem_cons_of_mem _ h1)
      · cases acc with
        | none =>
            have h2 : some (c, sqDist ((dictLookup nodes c).getD (0, 0)) p) = some bst := h1
            have hc : c = bst.1 := by
              have := congrArg (fun o => Option.map Prod.fst o) h2
              simpa using this
            exact Or.inl (hc ▸ List.mem_cons_self _ _)
        | some b =>
            have h2 : (if sqDist ((dictLookup nodes c).getD (0, 0)) p < b.2 then
                some (c, sqDist ((dictLookup nodes c).getD (0, 0)) p) else some b) =
                some bst := h1
            by_cases hd : sqDist ((dictLookup nodes c).getD (0, 0)) p < b.2
            · rw [if_pos hd] at h2
              have hc : c = bst.1 := by
                have := congrArg (fun o => Option.map Prod.fst o) h2
                simpa using this
              exact Or.inl (hc ▸ List.mem_cons_self _ _)
            · rw [if_neg hd] at h2
              exact Or.inr h2

theorem nearestNodeIn_mem_of_eq {nodes : Nodes} {cands : List NodeId} {p : Point}
    {bst : NodeId × ℚ} (h : nearestNodeIn nodes cands p = some bst) : bst.1 ∈ cands := by
  rcases nearestNodeIn_mem cands nodes none p bst h with h1 | h1
  · exact h1
  · exact absurd h1 (by simp)

/-- The edge invariant threaded through builder steps 1–3: symmetry, plus all
adjacency entries pointing at string ids with weights satisfying `Q`. -/
def EInv (Q : ℚ → Prop) (m : EdgeMap) : Prop := Symm m ∧ AdjQ Q m

/-- All node-dictionary keys are strings (holds until hubs are added). -/
def KeysStr (n : Nodes) : Prop := ∀ k ∈ dictKeys n, isStrId k = true

theorem einv_pair {Q : ℚ → Prop} {m : EdgeMap} {u v : NodeId} {w : ℚ}
    (h : EInv Q m) (hu : isStrId u = true) (hv : isStrId v = true) (hw : Q w) :
    EInv Q (edAppend (edAppend m u (v, w)) v (u, w)) :=
  ⟨symm_edAppend_pair h.1, adjQ_edAppend (adjQ_edAppend h.2 hv hw) hu hw⟩

theorem keysStr_insert {n : Nodes} {k : NodeId} {v : Point}
    (h : KeysStr n) (hkk : isStrId k = true) : KeysStr (dictInsert n k v) := by
  intro x hx
  rcases mem_dictKeys_dictInsert hx with rfl | hx2
  · exact hkk
  · exact h x hx2

theorem foldl_inv {α β : Type} (P : β → Prop) (f : β → α → β) :
    ∀ (l : List α) (b : β), P b → (∀ x ∈ l, ∀ b2, P b2 → P (f b2 x)) →
      P (l.foldl f b) := by
  intro l
  induction l with
  | nil => intro b hb _; exact hb
  | cons x xs ih =>
      intro b hb hstep
      rw [List.foldl_cons]
      exact ih (f b x) (hstep x (List.mem_cons_self _ _) b hb)
        (fun y hy b2 hb2 => hstep y (List.mem_cons_of_mem _ hy) b2 hb2)

theorem stage1Step_inv {Q : ℚ → Prop} (sqrtq : ℚ → ℚ) (hq : ∀ x, Q (sqrtq x))
    (acc : Nodes × EdgeMap) (r : RoadData)
    (h : EInv Q acc.2 ∧ KeysStr acc.1) :
    EInv Q (stage1Step sqrtq acc r).2 ∧ KeysStr (stage1Step sqrtq acc r).1 := by
  unfold stage1Step
  split_ifs with hor
  · exact ⟨einv_pair (einv_pair h.1 rfl rfl (hq _)) rfl rfl (hq _),
      keysStr_insert (keysStr_insert (keysStr_insert h.2 rfl) rfl) rfl⟩
  · exact ⟨einv_pair (einv_pair h.1 rfl rfl (hq _)) rfl rfl (hq _),
      keysStr_insert (keysStr_insert (keysStr_insert h.2 rfl) rfl) rfl⟩

theorem isStr_of_startsWith {nid : NodeId} {pre : String}
    (h : nidStartsWith nid pre = true) : isStrId nid = true := by
  cases nid with
  | str s => rfl
  | int n => simp [nidStartsWith] at h

theorem stage2Step_inv {Q : ℚ → Prop} (sqrtq : ℚ → ℚ) (hq : ∀ x, Q (sqrtq x))
    (acc : Nodes × EdgeMap) (ab : RoadData × RoadData)
    (h : EInv Q acc.2 ∧ KeysStr acc.1) :
    EInv Q (stage2Step sqrtq acc ab).2 ∧ KeysStr (stage2Step sqrtq acc ab).1 := by
  unfold stage2Step
  cases ho : rectOverlap ab.1 ab.2 with
  | none => exact h
  | some ov =>
      simp only []
      have hkeys2 : KeysStr (dictInsert acc.1 (interName ab.1.rid ab.2.rid)
          (ov.x + ov.w / 2, ov.y + ov.h / 2)) := keysStr_insert h.2 rfl
      have hbest : ∀ (pre : String) (edges : EdgeMap), EInv Q edges →
          EInv Q (match nearestNodeIn
              (dictInsert acc.1 (interName ab.1.rid ab.2.rid) (ov.x + ov.w / 2, ov.y + ov.h / 2))
              ((dictKeys (dictInsert acc.1 (interName ab.1.rid ab.2.rid)
                  (ov.x + ov.w / 2, ov.y + ov.h / 2))).filter
                (fun nid => nidStartsWith nid pre))
              (ov.x + ov.w / 2, ov.y + ov.h / 2) with
            | none => edges
            | some bst =>
                edAppend (edAppend edges (interName ab.1.rid ab.2.rid) (bst.1, sqrtq bst.2))
                  bst.1 ((interName ab.1.rid ab.2.rid), sqrtq bst.2)) := by
        intro pre edges he
        cases hn : nearestNodeIn
            (dictInsert acc.1 (interName ab.1.rid ab.2.rid) (ov.x + ov.w / 2, ov.y + ov.h / 2))
            ((dictKeys (dictInsert acc.1 (interName ab.1.rid ab.2.rid)
                (ov.x + ov.w / 2, ov.y + ov.h / 2))).filter
              (fun nid => nidStartsWith nid pre))
            (ov.x + ov.w / 2, ov.y + ov.h / 2) with
        | none => exact he
        | some bst =>
            have hmem := nearestNodeIn_mem_of_eq hn
            have hstr : isStrId bst.1 = true :=
              isStr_of_startsWith (List.mem_filter.mp hmem).2
            exact einv_pair he rfl hstr (hq _)
      exact ⟨hbest _ _ (hbest _ _ h.1), hkeys2⟩

theorem stage3Step_inv {Q : ℚ → Prop} (sqrtq : ℚ → ℚ) (hq : ∀ x, Q (sqrtq x))
    (nodes : Nodes) (hkeys : KeysStr nodes) (edges : EdgeMap)
    (p : NodeId × NodeId) (hp1 : p.1 ∈ dictKeys nodes) (hp2 : p.2 ∈ dictKeys nodes)
    (h : EInv Q edges) : EInv Q (stage3Step sqrtq nodes edges p) := by
  unfold stage3Step
  simp only []
  split_ifs with h1 h2
  · exact h
  · exact einv_pair h (hkeys p.1 hp1) (hkeys p.2 hp2) (hq _)
  · exact h

theorem stage123_inv {Q : ℚ → Prop} (sqrtq : ℚ → ℚ) (hq : ∀ x, Q (sqrtq x))
    (m : MapData) :
    EInv Q (stage3 sqrtq ((allPairs m.roads).foldl (stage2Step sqrtq) (stage1 sqrtq m.roads)).1
      ((allPairs m.roads).foldl (stage2Step sqrtq) (stage1 sqrtq m.roads)).2) ∧
    KeysStr ((allPairs m.roads).foldl (stage2Step sqrtq) (stage1 sqrtq m.roads)).1 := by
  have h1 : EInv Q (stage1 sqrtq m.roads).2 ∧ KeysStr (stage1 sqrtq m.roads).1 := by
    unfold stage1
    refine foldl_inv (fun acc => EInv Q acc.2 ∧ KeysStr acc.1) _ m.roads ([], []) ?_ ?_
    · constructor
      · constructor
        · intro u v w hm
          simp [adjOf, dictLookup_nil] at hm
        · intro u v w hm
          simp [adjOf, dictLookup_nil] at hm
      · intro k hk
        simp [dictKeys] at hk
    · intro r _ acc hacc
      exact stage1Step_inv sqrtq hq acc r hacc
  have h2 : EInv Q ((allPairs m.roads).foldl (stage2Step sqrtq) (stage1 sqrtq m.roads)).2 ∧
      KeysStr ((allPairs m.roads).foldl (stage2Step sqrtq) (stage1 sqrtq m.roads)).1 := by
    refine foldl_inv (fun acc => EInv Q acc.2 ∧ KeysStr acc.1) _ (allPairs m.roads)
      (stage1 sqrtq m.roads) h1 ?_
    intro ab _ acc hacc
    exact stage2Step_inv sqrtq hq acc ab hacc
  refine ⟨?_, h2.2⟩
  unfold stage3
  refine foldl_inv (EInv Q) _ _ _ h2.1 ?_
  intro p hp edges he
  obtain ⟨hm1, hm2⟩ := mem_allPairs hp
  exact stage3Step_inv sqrtq hq _ h2.2 edges p hm1 hm2 he

theorem wq_edAppend {Q : ℚ → Prop} {m : EdgeMap} {k v : NodeId} {w : ℚ}
    (h : WQ Q m) (hw : Q w) : WQ Q (edAppend m k (v, w)) := by
  intro a b c hmem
  rcases mem_adjOf_edAppend hmem with h1 | ⟨hak, hbw⟩
  · exact h a b c h1
  · have hc : c = w := congrArg Prod.snd hbw
    exact hc ▸ hw

theorem wq_dictInsert_empty {Q : ℚ → Prop} {m : EdgeMap} {k : NodeId}
    (h : WQ Q m) : WQ Q (dictInsert m k ([] : Adj)) := by
  intro a b c hmem
  rw [adjOf_dictInsert] at hmem
  by_cases ha : a = k
  · rw [if_pos ha] at hmem
    exact absurd hmem (List.not_mem_nil _)
  · rw [if_neg ha] at hmem
    exact h a b c hmem

theorem notMen_dictInsert_empty {m : EdgeMap} {k x : NodeId}
    (h : ∀ u w, (x, w) ∉ adjOf m u) :
    ∀ u w, (x, w) ∉ adjOf (dictInsert m k ([] : Adj)) u := by
  intro u w hmem
  rw [adjOf_dictInsert] at hmem
  by_cases hu : u = k
  · rw [if_pos hu] at hmem
    exact List.not_mem_nil _ hmem
  · rw [if_neg hu] at hmem
    exact h u w hmem

theorem notMen_edAppend {m : EdgeMap} {k v x : NodeId} {w : ℚ}
    (h : ∀ u c, (x, c) ∉ adjOf m u) (hxv : x ≠ v) :
    ∀ u c, (x, c) ∉ adjOf (edAppend m k (v, w)) u := by
  intro u c hmem
  rcases mem_adjOf_edAppend hmem with h1 | ⟨hak, hbw⟩
  · exact h u c h1
  · exact hxv (congrArg Prod.fst hbw)

theorem stage4_fold {Q : ℚ → Prop} (sqrtq : ℚ → ℚ) (snap : ℚ) (hq : ∀ x, Q (sqrtq x)) :
    ∀ (hs : List HubData) (acc : Nodes × EdgeMap),
      Symm acc.2 → WQ Q acc.2 →
      (∀ h2 ∈ hs, ∀ u w, (NodeId.int h2.hid, w) ∉ adjOf acc.2 u) →
      (∀ h2 ∈ hs, NodeId.int h2.hid ∉ dictKeys acc.1) →
      (hs.map HubData.hid).Nodup →
      Symm (hs.foldl (stage4Step sqrtq snap) acc).2 ∧
      WQ Q (hs.foldl (stage4Step sqrtq snap) acc).2 := by
  intro hs
  induction hs with
  | nil =>
      intro acc h1 h2 _ _ _
      exact ⟨h1, h2⟩
  | cons h rest ih =>
      intro acc hsym hw hunm hkeys hnodup
      rw [List.foldl_cons]
      obtain ⟨hhead, htail⟩ := List.nodup_cons.mp hnodup
      have hnmh : ∀ u w, (NodeId.int h.hid, w) ∉ adjOf acc.2 u :=
        hunm h (List.mem_cons_self _ _)
      have hsym2 : Symm (dictInsert acc.2 (NodeId.int h.hid) ([] : Adj)) :=
        symm_dictInsert_empty hsym hnmh
      have hw2 : WQ Q (dictInsert acc.2 (NodeId.int h.hid) ([] : Adj)) :=
        wq_dictInsert_empty hw
      have hne_ids : ∀ h2 ∈ rest, NodeId.int h2.hid ≠ NodeId.int h.hid := by
        intro h2 hmem heq
        have : h2.hid = h.hid := by injection heq
        exact hhead (this ▸ List.mem_map_of_mem HubData.hid hmem)
      have hkeys2 : ∀ h2 ∈ rest,
          NodeId.int h2.hid ∉ dictKeys (dictInsert acc.1 (NodeId.int h.hid) (h.x, h.y)) := by
        intro h2 hmem hk
        rcases mem_dictKeys_dictInsert hk with heq | hk2
        · exact hne_ids h2 hmem heq
        · exact hkeys h2 (List.mem_cons_of_mem _ hmem) hk2
      have hunm2 : ∀ h2 ∈ rest, ∀ u w,
          (NodeId.int h2.hid, w) ∉ adjOf (dictInsert acc.2 (NodeId.int h.hid) ([] : Adj)) u :=
        fun h2 hmem => notMen_dictInsert_empty (hunm h2 (List.mem_cons_of_mem _ hmem))
      unfold stage4Step
      simp only []
      split
      · exact ih _ hsym2 hw2 hunm2 hkeys2 htail
      · rename_i bst hn
        split_ifs with hsnap
        · have hbmem : bst.1 ∈ dictKeys (dictInsert acc.1 (NodeId.int h.hid) (h.x, h.y)) :=
            (List.mem_filter.mp (nearestNodeIn_mem_of_eq hn)).1
          have hbne : ∀ h2 ∈ rest, NodeId.int h2.hid ≠ bst.1 := by
            intro h2 hmem heq
            rcases mem_dictKeys_dictInsert (heq ▸ hbmem) with heq2 | hk2
            · exact hne_ids h2 hmem heq2
            · exact hkeys h2 (List.mem_cons_of_mem _ hmem) hk2
          refine ih _ (symm_edAppend_pair hsym2)
            (wq_edAppend (wq_edAppend hw2 (hq _)) (hq _)) ?_ hkeys2 htail
          intro h2 hmem u w
          exact notMen_edAppend
            (notMen_edAppend (hunm2 h2 hmem) (hbne h2 hmem))
            (hne_ids h2 hmem) u w
        · exact ih _ hsym2 hw2 hunm2 hkeys2 htail

theorem build_graph_einv {Q : ℚ → Prop} (sqrtq : ℚ → ℚ) (m : MapData) (snap : ℚ)
    (hq : ∀ x, Q (sqrtq x)) (hnodup : (m.hubs.map HubData.hid).Nodup) :
    Symm (build_graph sqrtq m snap).2 ∧ WQ Q (build_graph sqrtq m snap).2 := by
  obtain ⟨⟨hsym, hadj⟩, hkeys⟩ := stage123_inv (Q := Q) sqrtq hq m
  unfold build_graph
  refine stage4_fold sqrtq snap hq m.hubs _ hsym (fun u v w hm => (hadj u v w hm).2) ?_ ?_ hnodup
  · intro h2 _ u w hmem
    have := (hadj u _ w hmem).1
    simp [isStrId] at this
  · intro h2 _ hk
    have := hkeys _ hk
    simp [isStrId] at this

/-- C6: for every map document whose hub ids are unique (as the schema
requires of ids within each kind; road ids play no role in this property),
the edge map built by `build_graph` is symmetric — every adjacency entry
`(v, w)` of node `u` is matched by the entry `(u, w)` of node `v`, with equal
weight — for any square-root function and snap distance. -/
theorem claim_C6_symmetric (sqrtq : ℚ → ℚ) (m : MapData) (snap : ℚ)
    (hnodup : (m.hubs.map HubData.hid).Nodup) :
    Symm (build_graph sqrtq m snap).2 :=
  (build_graph_einv (Q := fun _ => True) sqrtq m snap (fun _ => trivial) hnodup).1

/-- Witness for C6: the two-hub map, with the symmetry applied to the one
concrete edge it builds. -/
theorem claim_C6_symmetric_witness :
    ((NodeId.int 1, (0 : ℚ)) ∈
      adjOf (build_graph (fun q => q) hubPairMap 80).2 (NodeId.int 2)) ∧
    ((NodeId.int 2, (0 : ℚ)) ∈
      adjOf (build_graph (fun q => q) hubPairMap 80).2 (NodeId.int 1)) :=
  ⟨by decide,
   claim_C6_symmetric (fun q => q) hubPairMap 80 (by decide) (NodeId.int 2) (NodeId.int 1) 0
     (by decide)⟩

/-! ### Claim C9: an isolated hub never routes and never spawns -/

theorem popMin_none_iff {pq : PQ} : popMin pq = none ↔ pq = [] := by
  cases pq with
  | nil => simp [popMin]
  | cons e rest =>
      simp only [popMin]
      cases h : popMin rest with
      | none => simp
      | some mr =>
          obtain ⟨m, rest2⟩ := mr
          by_cases hle : e.1 ≤ m.1 <;> simp [hle]

theorem popMin_mem : ∀ {pq : PQ} {m : PQEntry} {rest : PQ},
    popMin pq = some (m, rest) → m ∈ pq := by
  intro pq
  induction pq with
  | nil => intro m rest h; simp [popMin] at h
  | cons e tl ih =>
      intro m rest h
      simp only [popMin] at h
      cases hp : popMin tl with
      | none =>
          rw [hp] at h
          have h1 : e = m := congrArg (fun x => x.1) (Option.some.inj h)
          exact h1 ▸ List.mem_cons_self _ _
      | some mr =>
          obtain ⟨m2, rest2⟩ := mr
          rw [hp] at h
          have h9 : (if e.1 ≤ m2.1 then some ((e, tl) : PQEntry × PQ)
              else some (m2, e :: rest2)) = some (m, rest) := h
          by_cases hle : e.1 ≤ m2.1
          · rw [if_pos hle] at h9
            have h1 : e = m := congrArg (fun x => x.1) (Option.some.inj h9)
            exact h1 ▸ List.mem_cons_self _ _
          · rw [if_neg hle] at h9
            have h1 : m2 = m := congrArg (fun x => x.1) (Option.some.inj h9)
            exact List.mem_cons_of_mem _ (h1 ▸ ih hp)

theorem popMin_rest_subset : ∀ {pq : PQ} {m : PQEntry} {rest : PQ},
    popMin pq = some (m, rest) → ∀ x ∈ rest, x ∈ pq := by
  intro pq
  induction pq with
  | nil => intro m rest h; simp [popMin] at h
  | cons e tl ih =>
      intro m rest h x hx
      simp only [popMin] at h
      cases hp : popMin tl with
      | none =>
          rw [hp] at h
          have h2 : ([] : PQ) = rest := congrArg (fun y => y.2) (Option.some.inj h)
          rw [← h2] at hx
          exact absurd hx (List.not_mem_nil _)
      | some mr =>
          obtain ⟨m2, rest2⟩ := mr
          rw [hp] at h
          have h9 : (if e.1 ≤ m2.1 then some ((e, tl) : PQEntry × PQ)
              else some (m2, e :: rest2)) = some (m, rest) := h
          by_cases hle : e.1 ≤ m2.1
          · rw [if_pos hle] at h9
            have h2 : tl = rest := congrArg (fun y => y.2) (Option.some.inj h9)
            rw [← h2] at hx
            exact List.mem_cons_of_mem _ hx
          · rw [if_neg hle] at h9
            have h2 : e :: rest2 = rest := congrArg (fun y => y.2) (Option.some.inj h9)
            rw [← h2] at hx
            rcases List.mem_cons.mp hx with rfl | hx2
            · exact List.mem_cons_self _ _
            · exact List.mem_cons_of_mem _ (ih hp x hx2)

theorem popMin_length : ∀ {pq : PQ} {m : PQEntry} {rest : PQ},
    popMin pq = some (m, rest) → rest.length + 1 = pq.length := by
  intro pq
  induction pq with
  | nil => intro m rest h; simp [popMin] at h
  | cons e tl ih =>
      intro m rest h
      simp only [popMin] at h
      cases hp : popMin tl with
      | none =>
          rw [hp] at h
          have h2 : ([] : PQ) = rest := congrArg (fun y => y.2) (Option.some.inj h)
          have h3 : tl = [] := popMin_none_iff.mp hp
          rw [← h2, h3]
          rfl
      | some mr =>
          obtain ⟨m2, rest2⟩ := mr
          rw [hp] at h
          have h9 : (if e.1 ≤ m2.1 then some ((e, tl) : PQEntry × PQ)
              else some (m2, e :: rest2)) = some (m, rest) := h
          by_cases hle : e.1 ≤ m2.1
          · rw [if_pos hle] at h9
            have h2 : tl = rest := congrArg (fun y => y.2) (Option.some.inj h9)
            rw [← h2]
            rfl
          · rw [if_neg hle] at h9
            have h2 : e :: rest2 = rest := congrArg (fun y => y.2) (Option.some.inj h9)
            rw [← h2]
            have := ih hp
            simp only [List.length_cons] at this ⊢
            omega

theorem popMin_min : ∀ {pq : PQ} {m : PQEntry} {rest : PQ},
    popMin pq = some (m, rest) → ∀ x ∈ pq, m.1 ≤ x.1 := by
  intro pq
  induction pq with
  | nil => intro m rest h; simp [popMin] at h
  | cons e tl ih =>
      intro m rest h x hx
      simp only [popMin] at h
      cases hp : popMin tl with
      | none =>
          rw [hp] at h
          have h1 : e = m := congrArg (fun y => y.1) (Option.some.inj h)
          have h3 : tl = [] := popMin_none_iff.mp hp
          rw [h3] at hx
          rcases List.mem_cons.mp hx with rfl | hx2
      --  x = e
          · exact le_of_eq (congrArg (fun y => y.1) h1.symm)
          · exact absurd hx2 (List.not_mem_nil _)
      | some mr =>
          obtain ⟨m2, rest2⟩ := mr
          rw [hp] at h
          have h9 : (if e.1 ≤ m2.1 then some ((e, tl) : PQEntry × PQ)
              else some (m2, e :: rest2)) = some (m, rest) := h
          by_cases hle : e.1 ≤ m2.1
          · rw [if_pos hle] at h9
            have h1 : e = m := congrArg (fun y => y.1) (Option.some.inj h9)
            rcases List.mem_cons.mp hx with rfl | hx2
            · exact le_of_eq (congrArg (fun y => y.1) h1.symm)
            · exact le_trans (h1 ▸ hle) (ih hp x hx2)
          · rw [if_neg hle] at h9
            have h1 : m2 = m := congrArg (fun y => y.1) (Option.some.inj h9)
            rcases List.mem_cons.mp hx with rfl | hx2
            · exact le_of_lt (h1 ▸ not_le.mp hle)
            · exact h1 ▸ ih hp x hx2

theorem pushNeighbors_length (tc : TrafficCounts) (node : NodeId) (cost : ℚ)
    (path : List NodeId) (seen : SeenMap) :
    ∀ (adj : Adj) (pq : PQ),
      (pushNeighbors tc node cost path seen pq adj).length ≤ pq.length + adj.length := by
  intro adj
  unfold pushNeighbors
  induction adj with
  | nil => intro pq; simp
  | cons nb tl ih =>
      intro pq
      rw [List.foldl_cons]
      by_cases hc : (match dictLookup seen nb.1 with
          | none => true
          | some v => decide (cost + edgeCost nb.2 (tcLookup tc node nb.1) < v)) = true
      · rw [if_pos hc]
        have h1 := ih (pq ++ [(cost + edgeCost nb.2 (tcLookup tc node nb.1), nb.1,
          path ++ [nb.1])])
        simp only [List.length_append, List.length_singleton, List.length_cons,
          List.length_nil] at h1 ⊢
        omega
      · rw [if_neg hc]
        have h1 := ih pq
        simp only [List.length_cons] at h1 ⊢
        omega

theorem pushNeighbors_mem (tc : TrafficCounts) (node : NodeId) (cost : ℚ)
    (path : List NodeId) (seen : SeenMap) :
    ∀ (adj : Adj) (pq : PQ) (x : PQEntry),
      x ∈ pushNeighbors tc node cost path seen pq adj →
      x ∈ pq ∨ ∃ nb ∈ adj,
        x = (cost + edgeCost nb.2 (tcLookup tc node nb.1), nb.1, path ++ [nb.1]) := by
  intro adj
  unfold pushNeighbors
  induction adj with
  | nil => intro pq x hx; exact Or.inl hx
  | cons nb tl ih =>
      intro pq x hx
      rw [List.foldl_cons] at hx
      by_cases hc : (match dictLookup seen nb.1 with
          | none => true
          | some v => decide (cost + edgeCost nb.2 (tcLookup tc node nb.1) < v)) = true
      · rw [if_pos hc] at hx
        rcases ih _ x hx with hx2 | ⟨nb2, hnb2, hx3⟩
        · rcases List.mem_append.mp hx2 with hx3 | hx3
          · exact Or.inl hx3
          · exact Or.inr ⟨nb, List.mem_cons_self _ _, List.mem_singleton.mp hx3⟩
        · exact Or.inr ⟨nb2, List.mem_cons_of_mem _ hnb2, hx3⟩
      · rw [if_neg hc] at hx
        rcases ih pq x hx with hx2 | ⟨nb2, hnb2, hx3⟩
        · exact Or.inl hx2
        · exact Or.inr ⟨nb2, List.mem_cons_of_mem _ hnb2, hx3⟩

/-- Remaining adjacency potential: total adjacency length of the edge-map
entries whose key has not been finalised in `seen`. -/
def remPot : EdgeMap → SeenMap → Nat
  | [], _ => 0
  | kv :: rest, seen =>
      (if (dictLookup seen kv.1).isNone then kv.2.length else 0) + remPot rest seen

theorem remPot_insert_le (edges : EdgeMap) (seen : SeenMap) (n : NodeId) (c : ℚ) :
    remPot edges (dictInsert seen n c) ≤ remPot edges seen := by
  induction edges with
  | nil => exact le_refl _
  | cons kv rest ih =>
      simp only [remPot]
      have hterm : (if (dictLookup (dictInsert seen n c) kv.1).isNone then kv.2.length else 0) ≤
          (if (dictLookup seen kv.1).isNone then kv.2.length else 0) := by
        rw [dictLookup_dictInsert]
        by_cases hk : kv.1 = n
        · simp [hk]
        · simp [hk]
      omega

theorem remPot_insert_drop (edges : EdgeMap) (seen : SeenMap) (n : NodeId) (c : ℚ)
    (hn : dictLookup seen n = none) :
    remPot edges (dictInsert seen n c) + (adjOf edges n).length ≤ remPot edges seen := by
  induction edges with
  | nil =>
      simp [remPot, adjOf, dictLookup_nil]
  | cons kv rest ih =>
      simp only [remPot]
      by_cases hk : kv.1 = n
      · have hlk : dictLookup (dictInsert seen n c) kv.1 = some c := by
          rw [dictLookup_dictInsert, if_pos hk]
        have hlk2 : dictLookup seen kv.1 = none := by rw [hk]; exact hn
        have hadj : adjOf (kv :: rest) n = kv.2 := by
          rw [adjOf, dictLookup_cons, if_pos hk]
          rfl
        rw [hadj, hlk, hlk2]
        have e1 : (some c : Option ℚ).isNone = false := rfl
        have e2 : (none : Option ℚ).isNone = true := rfl
        rw [e1, e2, if_neg Bool.false_ne_true, if_pos rfl]
        have h5 := remPot_insert_le rest seen n c
        omega
      · have hadj : adjOf (kv :: rest) n = adjOf rest n := by
          rw [adjOf, dictLookup_cons, if_neg hk]
          rfl
        have hlk : dictLookup (dictInsert seen n c) kv.1 = dictLookup seen kv.1 := by
          rw [dictLookup_dictInsert, if_neg hk]
        rw [hadj, hlk]
        omega

theorem dictLookup_mem {κ α : Type} [DecidableEq κ] {m : List (κ × α)} {k : κ} {v : α}
    (h : dictLookup m k = some v) : (k, v) ∈ m := by
  induction m with
  | nil => simp [dictLookup_nil] at h
  | cons kv rest ih =>
      rw [dictLookup_cons] at h
      by_cases hk : kv.1 = k
      · rw [if_pos hk] at h
        have hv : kv.2 = v := Option.some.inj h
        have : kv = (k, v) := by
          obtain ⟨a, b⟩ := kv
          simp only at hk hv
          rw [hk, hv]
        exact this ▸ List.mem_cons_self _ _
      · rw [if_neg hk] at h
        exact List.mem_cons_of_mem _ (ih h)

theorem mem_dictInsert {κ α : Type} [DecidableEq κ] {m : List (κ × α)} {k : κ} {v : α}
    {kv : κ × α} (h : kv ∈ dictInsert m k v) : kv ∈ m ∨ kv = (k, v) := by
  induction m with
  | nil => simpa [dictInsert] using h
  | cons kv0 rest ih =>
      by_cases hk : kv0.1 = k
      · simp only [dictInsert, hk, if_pos, ite_true] at h
        rcases List.mem_cons.mp h with rfl | h2
        · exact Or.inr rfl
        · exact Or.inl (List.mem_cons_of_mem _ h2)
      · simp only [dictInsert, hk, ite_false] at h
        rcases List.mem_cons.mp h with rfl | h2
        · exact Or.inl (List.mem_cons_self _ _)
        · rcases ih h2 with h3 | h3
          · exact Or.inl (List.mem_cons_of_mem _ h3)
          · exact Or.inr h3

/-- Nonnegative weights (the builder produces them from a nonnegative square
root). -/
def WNNeg (edges : EdgeMap) : Prop := ∀ u v w, (v, w) ∈ adjOf edges u → 0 ≤ w

/-- Nonnegative congestion counts (`None` at every call site, i.e. all 0). -/
def TCNNeg (tc : TrafficCounts) : Prop := ∀ a b, 0 ≤ tcLookup tc a b

/-- Key termination property of the router loop: with nonnegative edge and
congestion costs, the loop can never exhaust its fuel once the fuel exceeds
the potential `|pq| + remPot` — every iteration pops one entry and either
skips it (heap minimality plus the lower-bound invariant make every revisit of
a `seen` node a skip) or finalises a new node, paying for its pushes out of
`remPot`. -/
theorem findPathAux_fuel_enough (edges : EdgeMap) (goal : NodeId) (tc : TrafficCounts)
    (hw : WNNeg edges) (ht : TCNNeg tc) :
    ∀ (F : Nat) (pq : PQ) (seen : SeenMap) (c0 : ℚ),
      (∀ e ∈ pq, c0 ≤ e.1) → (∀ kv ∈ seen, kv.2 ≤ c0) →
      pq.length + remPot edges seen ≤ F →
      findPathAux edges goal tc (F + 1) pq seen ≠ none := by
  intro F
  induction F with
  | zero =>
      intro pq seen c0 hpq hseen hpot
      have hlen : pq.length = 0 := by omega
      have hemp : pq = [] := List.length_eq_zero.mp hlen
      subst hemp
      intro hcon
      rw [findPathAux] at hcon
      simp [popMin] at hcon
  | succ F ih =>
      intro pq seen c0 hpq hseen hpot
      rw [findPathAux]
      cases hp : popMin pq with
      | none => simp
      | some mr =>
          obtain ⟨m, pq2⟩ := mr
          obtain ⟨cost, node, path⟩ := m
          simp only []
          by_cases hg : node = goal
          · simp [hg]
          · rw [if_neg hg]
            have hmem := popMin_mem hp
            have hc0 : c0 ≤ cost := hpq _ hmem
            have hmin := popMin_min hp
            have hsub := popMin_rest_subset hp
            have hlen := popMin_length hp
            cases hs : dictLookup seen node with
            | some sc =>
                have hscle : sc ≤ cost :=
                  le_trans (hseen _ (dictLookup_mem hs)) hc0
                show (if decide (sc ≤ cost) = true then
                    findPathAux edges goal tc (F + 1) pq2 seen
                  else
                    findPathAux edges goal tc (F + 1)
                      (pushNeighbors tc node cost path (dictInsert seen node cost) pq2
                        (adjOf edges node)) (dictInsert seen node cost)) ≠ none
                rw [if_pos (decide_eq_true hscle)]
                refine ih pq2 seen c0 (fun e he => hpq e (hsub e he)) hseen ?_
                omega
            | none =>
                show (if false = true then
                    findPathAux edges goal tc (F + 1) pq2 seen
                  else
                    findPathAux edges goal tc (F + 1)
                      (pushNeighbors tc node cost path (dictInsert seen node cost) pq2
                        (adjOf edges node)) (dictInsert seen node cost)) ≠ none
                rw [if_neg Bool.false_ne_true]
                refine ih (pushNeighbors tc node cost path (dictInsert seen node cost) pq2
                    (adjOf edges node)) (dictInsert seen node cost) cost ?_ ?_ ?_
                · intro e he
                  rcases pushNeighbors_mem tc node cost path _ _ _ e he with he2 | ⟨nb, hnb, rfl⟩
                  · exact hmin e (hsub e he2)
                  · have hw2 : 0 ≤ nb.2 := hw node nb.1 nb.2 (by
                      obtain ⟨a, b⟩ := nb
                      exact hnb)
                    have ht2 : 0 ≤ tcLookup tc node nb.1 := ht node nb.1
                    simp only [edgeCost]
                    nlinarith
                · intro kv hkv
                  rcases mem_dictInsert hkv with hkv2 | rfl
                  · exact le_trans (hseen kv hkv2) hc0
                  · exact le_refl _
                · have h1 := pushNeighbors_length tc node cost path
                    (dictInsert seen node cost) (adjOf edges node) pq2
                  have h2 := remPot_insert_drop edges seen node cost hs
                  omega

/-- When no adjacency entry anywhere mentions the goal and no queued entry is
at the goal, the router loop can never return a path, whatever the fuel. -/
theorem findPathAux_no_path (edges : EdgeMap) (goal : NodeId) (tc : TrafficCounts)
    (hadj : ∀ u nb, nb ∈ adjOf edges u → nb.1 ≠ goal) :
    ∀ (fuel : Nat) (pq : PQ) (seen : SeenMap),
      (∀ e ∈ pq, e.2.1 ≠ goal) →
      ∀ p, findPathAux edges goal tc fuel pq seen ≠ some (some p) := by
  intro fuel
  induction fuel with
  | zero =>
      intro pq seen hpq p
      rw [findPathAux]
      simp
  | succ F ih =>
      intro pq seen hpq p
      rw [findPathAux]
      cases hp : popMin pq with
      | none => simp
      | some mr =>
          obtain ⟨mm, pq2⟩ := mr
          obtain ⟨cost, node, path⟩ := mm
          simp only []
          have hng : ¬(node = goal) := hpq _ (popMin_mem hp)
          rw [if_neg hng]
          have hsub := popMin_rest_subset hp
          have hpq2 : ∀ e ∈ pq2, e.2.1 ≠ goal := fun e he => hpq e (hsub e he)
          have hpush : ∀ e ∈ pushNeighbors tc node cost path (dictInsert seen node cost)
              pq2 (adjOf edges node), e.2.1 ≠ goal := by
            intro e he
            rcases pushNeighbors_mem tc node cost path _ _ _ e he with he2 | ⟨nb, hnb, rfl⟩
            · exact hpq2 e he2
            · exact hadj node nb hnb
          cases hs : dictLookup seen node with
          | some sc =>
              show (if decide (sc ≤ cost) = true then
                  findPathAux edges goal tc F pq2 seen
                else
                  findPathAux edges goal tc F
                    (pushNeighbors tc node cost path (dictInsert seen node cost) pq2
                      (adjOf edges node)) (dictInsert seen node cost)) ≠ some (some p)
              by_cases hd : sc ≤ cost
              · rw [if_pos (decide_eq_true hd)]
                exact ih pq2 seen hpq2 p
              · rw [if_neg (by simpa using hd)]
                exact ih _ _ hpush p
          | none =>
              show (if false = true then
                  findPathAux edges goal tc F pq2 seen
                else
                  findPathAux edges goal tc F
                    (pushNeighbors tc node cost path (dictInsert seen node cost) pq2
                      (adjOf edges node)) (dictInsert seen node cost)) ≠ some (some p)
              rw [if_neg Bool.false_ne_true]
              exact ih _ _ hpush p

/-- One loop iteration from a start node with an empty adjacency list: the
popped start either is the goal or finalises with no pushes. -/
theorem findPathAux_hub_step (edges : EdgeMap) (hub g : NodeId) (tc : TrafficCounts)
    (hiso : dictLookup edges hub = some []) (f : Nat) :
    findPathAux edges g tc (f + 1) [(0, hub, [hub])] [] =
      (if hub = g then some (some [hub])
       else findPathAux edges g tc f [] (dictInsert [] hub 0)) := by
  have hadjnil : adjOf edges hub = [] := by
    rw [adjOf, hiso]
    rfl
  rw [findPathAux]
  show (if hub = g then some (some [hub])
    else findPathAux edges g tc f
      (pushNeighbors tc hub 0 [hub] (dictInsert [] hub 0) [] (adjOf edges hub))
      (dictInsert [] hub 0)) = _
  rw [hadjnil]
  rfl

/-- Routing away from a node with an empty adjacency list: the only outcomes,
for any fuel, are fuel exhaustion, the unreachable answer, or (when start
equals goal) the degenerate one-node path. -/
theorem find_path_hub_cases (edges : EdgeMap) (hub g : NodeId) (tc : TrafficCounts)
    (hiso : dictLookup edges hub = some []) :
    ∀ fuel, find_path edges hub g tc fuel = none ∨
      find_path edges hub g tc fuel = some none ∨
      find_path edges hub g tc fuel = some (some [hub]) := by
  intro fuel
  unfold find_path
  by_cases hmem : ((dictLookup edges hub).isNone = true ∨ (dictLookup edges g).isNone = true)
  · rw [if_pos hmem]
    exact Or.inr (Or.inl rfl)
  · rw [if_neg hmem]
    cases fuel with
    | zero => exact Or.inl rfl
    | succ f =>
        rw [findPathAux_hub_step edges hub g tc hiso f]
        by_cases hgoal : hub = g
        · rw [if_pos hgoal]
          exact Or.inr (Or.inr rfl)
        · rw [if_neg hgoal]
          cases f with
          | zero => exact Or.inl rfl
          | succ f2 =>
              refine Or.inr (Or.inl ?_)
              rw [findPathAux]
              rfl

/-- The wrapper of `findPathAux_no_path` at the `find_path` entry point. -/
theorem find_path_no_path_to (edges : EdgeMap) (goal : NodeId) (tc : TrafficCounts)
    (hadj : ∀ u nb, nb ∈ adjOf edges u → nb.1 ≠ goal)
    (s : NodeId) (hs : s ≠ goal) :
    ∀ fuel p, find_path edges s goal tc fuel ≠ some (some p) := by
  intro fuel p
  unfold find_path
  by_cases hmem : ((dictLookup edges s).isNone = true ∨ (dictLookup edges goal).isNone = true)
  · rw [if_pos hmem]
    simp
  · rw [if_neg hmem]
    refine findPathAux_no_path edges goal tc hadj fuel _ _ ?_ p
    intro e he
    rcases List.mem_singleton.mp he with rfl
    exact hs

/-! ### A faithful model of `heapq` with Python's fallible tuple comparison -/

/-- Python `<` on two node ids: strings compare lexicographically by code
points, ints as integers, and a mixed int/str comparison raises `TypeError`
(`none`). -/
def pyLtNodeId : NodeId → NodeId → Option Bool
  | NodeId.str a, NodeId.str b => some (charListLt a.data b.data)
  | NodeId.int a, NodeId.int b => some (decide (a < b))
  | _, _ => none

/-- Python `<` on two paths (lists): skip the longest common prefix (list
elements are checked with the total `==` first), compare the first differing
elements — which may raise — and otherwise the shorter list is smaller. -/
def pyLtPath : List NodeId → List NodeId → Option Bool
  | [], [] => some false
  | [], _ :: _ => some true
  | _ :: _, [] => some false
  | a :: tla, b :: tlb => if a = b then pyLtPath tla tlb else pyLtNodeId a b

/-- Python `<` on two heap entries `(cost, node, path)`: lexicographic tuple
comparison.  The float costs compare totally; on an exact cost tie the node
ids are compared (`==` between an int and a str is `False` without raising,
but the `<` that follows raises `TypeError`); on an id tie the paths are
compared. -/
def pyLtEntry (a b : PQEntry) : Option Bool :=
  if a.1 < b.1 then some true
  else if b.1 < a.1 then some false
  else if a.2.1 = b.2.1 then pyLtPath a.2.2 b.2.2
  else pyLtNodeId a.2.1 b.2.1

/-- The `while pos > startpos` loop of `heapq._siftdown`: while the new item
compares below its parent, move the parent down; finally write the new item
into the resting slot.  `pos` moves to `(pos - 1) / 2` each step, so a fuel
of `pos` always suffices and the fuel-exhaustion branch (which mirrors loop
exit) is unreachable.  A failed comparison (`none`) is the raised
`TypeError`. -/
def siftdownAux (startpos : Nat) (newitem : PQEntry) :
    Nat → List PQEntry → Nat → Option (List PQEntry)
  | 0, heap, pos => some (heap.set pos newitem)
  | f + 1, heap, pos =>
      if startpos < pos then
        match heap[(pos - 1) / 2]? with
        | none => none
        | some parent =>
            match pyLtEntry newitem parent with
            | none => none
            | some b =>
                if b then siftdownAux startpos newitem f (heap.set pos parent) ((pos - 1) / 2)
                else some (heap.set pos newitem)
      else some (heap.set pos newitem)

/-- `heapq._siftdown(heap, startpos, pos)`: read `newitem = heap[pos]` and
bubble it towards the root past any larger parent. -/
def pySiftdown (heap : List PQEntry) (startpos pos : Nat) : Option (List PQEntry) :=
  match heap[pos]? with
  | none => none
  | some newitem => siftdownAux startpos newitem pos heap pos

/-- The child-selection step of `heapq._siftup`: with both children in range,
keep the left child unless `not heap[childpos] < heap[rightpos]` (this
fallible comparison is what Python evaluates); with only the left child in
range, pick it. -/
def siftupChild (endpos : Nat) (heap : List PQEntry) (pos : Nat) : Option Nat :=
  if 2 * pos + 2 < endpos then
    match heap[2 * pos + 1]?, heap[2 * pos + 2]? with
    | some c, some r =>
        match pyLtEntry c r with
        | none => none
        | some b => some (if b then 2 * pos + 1 else 2 * pos + 2)
    | _, _ => none
  else some (2 * pos + 1)

/-- The `while childpos < endpos` loop of `heapq._siftup`: move the selected
child up one level and descend to it, returning the final heap and resting
position.  The position strictly increases below `endpos`, so a fuel of
`endpos + 1` always suffices and the exhaustion branch (mirroring loop exit)
is unreachable. -/
def siftupAux (endpos : Nat) :
    Nat → List PQEntry → Nat → Option (List PQEntry × Nat)
  | 0, heap, pos => some (heap, pos)
  | f + 1, heap, pos =>
      if 2 * pos + 1 < endpos then
        match siftupChild endpos heap pos with
        | none => none
        | some c =>
            match heap[c]? with
            | none => none
            | some child => siftupAux endpos f (heap.set pos child) c
      else some (heap, pos)

/-- `heapq._siftup(heap, pos)`: sink the slot at `pos` to a leaf along the
smaller-child path, write the saved item there and sift it back towards the
root (`heap[pos] = newitem; _siftdown(heap, startpos, pos)`). -/
def pySiftup (heap : List PQEntry) (pos : Nat) : Option (List PQEntry) :=
  match heap[pos]? with
  | none => none
  | some newitem =>
      match siftupAux heap.length (heap.length + 1) heap pos with
      | none => none
      | some (hp, pos2) => siftdownAux pos newitem pos2 (hp.set pos2 newitem) pos2

/-- `heapq.heappush(heap, item)`: append, then sift the new last slot towards
the root. -/
def pyHeappush (heap : List PQEntry) (item : PQEntry) : Option (List PQEntry) :=
  pySiftdown (heap ++ [item]) 0 heap.length

/-- `heapq.heappop(heap)`: detach the last element; on a nonempty remainder
overwrite the root with it, sift up, and return the old root.  `none` is a
raised exception — the empty pop's `IndexError`, unreachable behind the
`while pq:` guard, or a `TypeError` from a sift comparison. -/
def pyHeappop (heap : List PQEntry) : Option (PQEntry × List PQEntry) :=
  match heap.getLast? with
  | none => none
  | some lastelt =>
      if heap.dropLast.isEmpty then some (lastelt, [])
      else
        match heap.dropLast[0]? with
        | none => none
        | some returnitem =>
            match pySiftup (heap.dropLast.set 0 lastelt) 0 with
            | none => none
            | some hp => some (returnitem, hp)

/-- The observable outcome of a `find_path` call under the faithful heap: a
propagated exception, the `return None` answer, or a path. -/
inductive RouterOutcome where
  | raised : RouterOutcome
  | unreachable : RouterOutcome
  | path : List NodeId → RouterOutcome
deriving DecidableEq, Repr

/-- The neighbor loop of `find_path` over the faithful heap: each qualifying
neighbor entry is `heappush`ed in order; a raised comparison aborts the
loop. -/
def pushNeighborsPy (tc : TrafficCounts) (node : NodeId) (cost : ℚ)
    (path : List NodeId) (seen : SeenMap) :
    Adj → List PQEntry → Option (List PQEntry)
  | [], pq => some pq
  | nb :: rest, pq =>
      if (match dictLookup seen nb.1 with
          | none => true
          | some v => decide (cost + edgeCost nb.2 (tcLookup tc node nb.1) < v)) = true then
        match pyHeappush pq (cost + edgeCost nb.2 (tcLookup tc node nb.1), nb.1,
            path ++ [nb.1]) with
        | none => none
        | some pqp => pushNeighborsPy tc node cost path seen rest pqp
      else pushNeighborsPy tc node cost path seen rest pq

/-- The `while pq:` loop of `find_path` over the faithful heap, with explicit
fuel: `none` means the fuel ran out while the source still loops; a failed
heap comparison surfaces as `RouterOutcome.raised`. -/
def findPathPyAux (edges : EdgeMap) (goal : NodeId) (tc : TrafficCounts) :
    Nat → List PQEntry → SeenMap → Option RouterOutcome
  | 0, _, _ => none
  | fuel + 1, pq, seen =>
      if pq.isEmpty then some RouterOutcome.unreachable
      else
        match pyHeappop pq with
        | none => some RouterOutcome.raised
        | some ((cost, node, path), pq2) =>
            if node = goal then some (RouterOutcome.path path)
            else
              let skip :=
                match dictLookup seen node with
                | some sc => decide (sc ≤ cost)
                | none => false
              if skip then findPathPyAux edges goal tc fuel pq2 seen
              else
                match pushNeighborsPy tc node cost path (dictInsert seen node cost)
                    (adjOf edges node) pq2 with
                | none => some RouterOutcome.raised
                | some pq3 => findPathPyAux edges goal tc fuel pq3 (dictInsert seen node cost)

/-- `find_path(edges, start_id, goal_id, traffic_counts)` over the faithful
heap model. -/
def find_path_py (edges : EdgeMap) (start goal : NodeId) (tc : TrafficCounts)
    (fuel : Nat) : Option RouterOutcome :=
  if (dictLookup edges start).isNone ∨ (dictLookup edges goal).isNone then
    some RouterOutcome.unreachable
  else findPathPyAux edges goal tc fuel [(0, start, [start])] []

/-- `Simulator.spawn_car(start_id, end_id)` over the faithful router.  The
outer `none` is an unanswered router call (fuel); `some none` is an exception
propagating out of `spawn_car` — the router's `TypeError` or the constructor's
`KeyError` — which creates no vehicle. -/
def spawn_car_py (fuel : Nat) (st : SimState) (start goal : NodeId) (rand : ℚ) :
    Option (Option (Bool × SimState)) :=
  match find_path_py st.edges start goal [] fuel with
  | none => none
  | some RouterOutcome.raised => some none
  | some RouterOutcome.unreachable => some (some (false, st))
  | some (RouterOutcome.path p) =>
      if p.length < 2 then some (some (false, st))
      else
        match p with
        | [] => some (some (false, st))
        | p0 :: _ =>
            match dictLookup st.nodes p0 with
            | none => some none
            | some _ =>
                some (some (true,
                  { st with
                    cars := st.cars ++ [Car.init p st.nodes st.next_car_id rand]
                    next_car_id := st.next_car_id + 1 }))

theorem mem_of_getLastOpt {α : Type} : ∀ {l : List α} {a : α},
    l.getLast? = some a → a ∈ l := by
  intro l
  induction l with
  | nil => intro a h; simp [List.getLast?] at h
  | cons hd tl ih =>
      intro a h
      cases tl with
      | nil =>
          simp [List.getLast?] at h
          simp [h]
      | cons b tl2 =>
          rw [List.getLast?_cons_cons] at h
          exact List.mem_cons_of_mem _ (ih h)

/-- Sifting down only rearranges: every element of the result was in the input
heap or is the item being sifted. -/
theorem siftdownAux_mem (startpos : Nat) (newitem : PQEntry) :
    ∀ (f : Nat) (heap : List PQEntry) (pos : Nat) (hout : List PQEntry),
      siftdownAux startpos newitem f heap pos = some hout →
      ∀ x ∈ hout, x ∈ heap ∨ x = newitem := by
  intro f
  induction f with
  | zero =>
      intro heap pos hout h x hx
      rw [siftdownAux] at h
      rw [← Option.some.inj h] at hx
      exact List.mem_or_eq_of_mem_set hx
  | succ f ih =>
      intro heap pos hout h x hx
      rw [siftdownAux] at h
      split at h
      · split at h
        · exact Option.noConfusion h
        · rename_i parent hg
          split at h
          · exact Option.noConfusion h
          · rename_i b hlt
            split at h
            · rcases ih _ _ hout h x hx with hx2 | hx2
              · rcases List.mem_or_eq_of_mem_set hx2 with hx3 | hx3
                · exact Or.inl hx3
                · rw [hx3]
                  exact Or.inl (List.getElem?_mem hg)
              · exact Or.inr hx2
            · rw [← Option.some.inj h] at hx
              exact List.mem_or_eq_of_mem_set hx
      · rw [← Option.some.inj h] at hx
        exact List.mem_or_eq_of_mem_set hx

/-- Wrapper of `siftdownAux_mem` at the `_siftdown` entry point. -/
theorem pySiftdown_mem {heap : List PQEntry} {startpos pos : Nat} {hout : List PQEntry}
    (h : pySiftdown heap startpos pos = some hout) : ∀ x ∈ hout, x ∈ heap := by
  rw [pySiftdown] at h
  split at h
  · exact Option.noConfusion h
  · rename_i newitem hnew
    intro x hx
    rcases siftdownAux_mem startpos newitem pos heap pos hout h x hx with hx2 | hx2
    · exact hx2
    · rw [hx2]
      exact List.getElem?_mem hnew

/-- The descent loop of `_siftup` only copies elements of the heap around. -/
theorem siftupAux_mem (endpos : Nat) :
    ∀ (f : Nat) (heap : List PQEntry) (pos : Nat) (hout : List PQEntry) (pos2 : Nat),
      siftupAux endpos f heap pos = some (hout, pos2) →
      ∀ x ∈ hout, x ∈ heap := by
  intro f
  induction f with
  | zero =>
      intro heap pos hout pos2 h x hx
      rw [siftupAux] at h
      injection h with h2
      injection h2 with hfst hsnd
      rw [← hfst] at hx
      exact hx
  | succ f ih =>
      intro heap pos hout pos2 h x hx
      rw [siftupAux] at h
      split at h
      · split at h
        · exact Option.noConfusion h
        · rename_i c hc
          split at h
          · exact Option.noConfusion h
          · rename_i child hchild
            rcases List.mem_or_eq_of_mem_set (ih _ _ hout pos2 h x hx) with hx2 | hx2
            · exact hx2
            · rw [hx2]
              exact List.getElem?_mem hchild
      · injection h with h2
        injection h2 with hfst hsnd
        rw [← hfst] at hx
        exact hx

/-- Wrapper of the sift lemmas at the `_siftup` entry point. -/
theorem pySiftup_mem {heap : List PQEntry} {pos : Nat} {hout : List PQEntry}
    (h : pySiftup heap pos = some hout) : ∀ x ∈ hout, x ∈ heap := by
  rw [pySiftup] at h
  split at h
  · exact Option.noConfusion h
  · rename_i newitem hnew
    split at h
    · exact Option.noConfusion h
    · rename_i hp pos2 hsu
      intro x hx
      rcases siftdownAux_mem pos newitem pos2 (hp.set pos2 newitem) pos2 hout h x hx with
        hx2 | hx2
      · rcases List.mem_or_eq_of_mem_set hx2 with hx3 | hx3
        · exact siftupAux_mem heap.length (heap.length + 1) heap pos hp pos2 hsu x hx3
        · rw [hx3]
          exact List.getElem?_mem hnew
      · rw [hx2]
        exact List.getElem?_mem hnew

/-- `heappush` adds exactly the pushed item to the heap contents. -/
theorem pyHeappush_mem {heap : List PQEntry} {item : PQEntry} {hout : List PQEntry}
    (h : pyHeappush heap item = some hout) :
    ∀ x ∈ hout, x ∈ heap ∨ x = item := by
  rw [pyHeappush] at h
  intro x hx
  have h3 := pySiftdown_mem h x hx
  rcases List.mem_append.mp h3 with h4 | h4
  · exact Or.inl h4
  · exact Or.inr (List.mem_singleton.mp h4)

/-- `heappop` returns an element of the heap, and the remaining heap holds
only elements of the input. -/
theorem pyHeappop_mem {heap : List PQEntry} {m : PQEntry} {rest : List PQEntry}
    (h : pyHeappop heap = some (m, rest)) :
    m ∈ heap ∧ ∀ x ∈ rest, x ∈ heap := by
  rw [pyHeappop] at h
  split at h
  · exact Option.noConfusion h
  · rename_i lastelt hlast
    have hlm : lastelt ∈ heap := mem_of_getLastOpt hlast
    split at h
    · injection h with h3
      injection h3 with hfst hsnd
      subst hfst
      subst hsnd
      refine ⟨hlm, ?_⟩
      intro x hx
      exact absurd hx (List.not_mem_nil x)
    · split at h
      · exact Option.noConfusion h
      · rename_i returnitem hret
        split at h
        · exact Option.noConfusion h
        · rename_i hres hsift
          injection h with h4
          injection h4 with hfst hsnd
          subst hfst
          subst hsnd
          refine ⟨?_, ?_⟩
          · exact List.Sublist.subset (@List.dropLast_sublist _ heap) (List.getElem?_mem hret)
          · intro x hx
            have h5 := pySiftup_mem hsift x hx
            rcases List.mem_or_eq_of_mem_set h5 with h6 | h6
            · exact List.Sublist.subset (@List.dropLast_sublist _ heap) h6
            · rw [h6]
              exact hlm

/-- The faithful neighbor loop only adds entries at adjacency neighbors. -/
theorem pushNeighborsPy_mem (tc : TrafficCounts) (node : NodeId) (cost : ℚ)
    (path : List NodeId) (seen : SeenMap) :
    ∀ (adj : Adj) (pq pq2 : List PQEntry),
      pushNeighborsPy tc node cost path seen adj pq = some pq2 →
      ∀ x ∈ pq2, x ∈ pq ∨ ∃ nb ∈ adj,
        x = (cost + edgeCost nb.2 (tcLookup tc node nb.1), nb.1, path ++ [nb.1]) := by
  intro adj
  induction adj with
  | nil =>
      intro pq pq2 h x hx
      rw [pushNeighborsPy] at h
      rw [← Option.some.inj h] at hx
      exact Or.inl hx
  | cons nb tl ih =>
      intro pq pq2 h x hx
      rw [pushNeighborsPy] at h
      split at h
      · split at h
        · exact Option.noConfusion h
        · rename_i pqp hpp
          rcases ih pqp pq2 h x hx with hx2 | ⟨nb2, hnb2, hx3⟩
          · rcases pyHeappush_mem hpp x hx2 with hx3 | hx3
            · exact Or.inl hx3
            · exact Or.inr ⟨nb, List.mem_cons_self _ _, hx3⟩
          · exact Or.inr ⟨nb2, List.mem_cons_of_mem _ hnb2, hx3⟩
      · rcases ih pq pq2 h x hx with hx2 | ⟨nb2, hnb2, hx3⟩
        · exact Or.inl hx2
        · exact Or.inr ⟨nb2, List.mem_cons_of_mem _ hnb2, hx3⟩

/-- When no adjacency entry anywhere mentions the goal and no queued entry is
at the goal, the faithful router loop can never return a path, whatever the
fuel — every run answers unreachable, raises, or runs out of fuel. -/
theorem findPathPyAux_no_path (edges : EdgeMap) (goal : NodeId) (tc : TrafficCounts)
    (hadj : ∀ u nb, nb ∈ adjOf edges u → nb.1 ≠ goal) :
    ∀ (fuel : Nat) (pq : List PQEntry) (seen : SeenMap),
      (∀ e ∈ pq, e.2.1 ≠ goal) →
      ∀ p, findPathPyAux edges goal tc fuel pq seen ≠ some (RouterOutcome.path p) := by
  intro fuel
  induction fuel with
  | zero =>
      intro pq seen hpq p
      rw [findPathPyAux]
      exact fun hcon => Option.noConfusion hcon
  | succ F ih =>
      intro pq seen hpq p
      rw [findPathPyAux]
      by_cases hemp : pq.isEmpty = true
      · rw [if_pos hemp]
        exact fun hcon => RouterOutcome.noConfusion (Option.some.inj hcon)
      · rw [if_neg hemp]
        cases hp : pyHeappop pq with
        | none => exact fun hcon => RouterOutcome.noConfusion (Option.some.inj hcon)
        | some mr =>
            obtain ⟨mm, pq2⟩ := mr
            obtain ⟨cost, node, path⟩ := mm
            simp only []
            have hng : ¬(node = goal) := hpq _ (pyHeappop_mem hp).1
            rw [if_neg hng]
            have hsub := (pyHeappop_mem hp).2
            have hpq2 : ∀ e ∈ pq2, e.2.1 ≠ goal := fun e he => hpq e (hsub e he)
            have hpush : ∀ pq3, pushNeighborsPy tc node cost path (dictInsert seen node cost)
                (adjOf edges node) pq2 = some pq3 →
                ∀ e ∈ pq3, e.2.1 ≠ goal := by
              intro pq3 h3 e he
              rcases pushNeighborsPy_mem tc node cost path (dictInsert seen node cost)
                  (adjOf edges node) pq2 pq3 h3 e he with he2 | ⟨nb, hnb, hx⟩
              · exact hpq2 e he2
              · rw [hx]
                exact hadj node nb hnb
            cases hs : dictLookup seen node with
            | some sc =>
                show (if decide (sc ≤ cost) = true then
                    findPathPyAux edges goal tc F pq2 seen
                  else
                    match pushNeighborsPy tc node cost path (dictInsert seen node cost)
                        (adjOf edges node) pq2 with
                    | none => some RouterOutcome.raised
                    | some pq3 => findPathPyAux edges goal tc F pq3 (dictInsert seen node cost))
                  ≠ some (RouterOutcome.path p)
                by_cases hd : sc ≤ cost
                · rw [if_pos (decide_eq_true hd)]
                  exact ih pq2 seen hpq2 p
                · rw [if_neg (by simpa using hd)]
                  cases h3 : pushNeighborsPy tc node cost path (dictInsert seen node cost)
                      (adjOf edges node) pq2 with
                  | none => exact fun hcon => RouterOutcome.noConfusion (Option.some.inj hcon)
                  | some pq3 => exact ih pq3 _ (hpush pq3 h3) p
            | none =>
                show (if false = true then
                    findPathPyAux edges goal tc F pq2 seen
                  else
                    match pushNeighborsPy tc node cost path (dictInsert seen node cost)
                        (adjOf edges node) pq2 with
                    | none => some RouterOutcome.raised
                    | some pq3 => findPathPyAux edges goal tc F pq3 (dictInsert seen node cost))
                  ≠ some (RouterOutcome.path p)
                rw [if_neg Bool.false_ne_true]
                cases h3 : pushNeighborsPy tc node cost path (dictInsert seen node cost)
                    (adjOf edges node) pq2 with
                | none => exact fun hcon => RouterOutcome.noConfusion (Option.some.inj hcon)
                | some pq3 => exact ih pq3 _ (hpush pq3 h3) p

/-- The wrapper of `findPathPyAux_no_path` at the `find_path_py` entry
point. -/
theorem find_path_py_no_path_to (edges : EdgeMap) (goal : NodeId) (tc : TrafficCounts)
    (hadj : ∀ u nb, nb ∈ adjOf edges u → nb.1 ≠ goal)
    (s : NodeId) (hs : s ≠ goal) :
    ∀ fuel p, find_path_py edges s goal tc fuel ≠ some (RouterOutcome.path p) := by
  intro fuel p
  unfold find_path_py
  by_cases hmem : ((dictLookup edges s).isNone = true ∨ (dictLookup edges goal).isNone = true)
  · rw [if_pos hmem]
    exact fun hcon => RouterOutcome.noConfusion (Option.some.inj hcon)
  · rw [if_neg hmem]
    refine findPathPyAux_no_path edges goal tc hadj fuel _ _ ?_ p
    intro e he
    rcases List.mem_singleton.mp he with rfl
    exact hs

/-- One faithful loop iteration from a start node with an empty adjacency
list: the popped start either is the goal or finalises with no pushes and no
comparison evaluated. -/
theorem findPathPyAux_hub_step (edges : EdgeMap) (hub g : NodeId) (tc : TrafficCounts)
    (hiso : dictLookup edges hub = some []) (f : Nat) :
    findPathPyAux edges g tc (f + 1) [(0, hub, [hub])] [] =
      (if hub = g then some (RouterOutcome.path [hub])
       else findPathPyAux edges g tc f [] (dictInsert [] hub 0)) := by
  have hadjnil : adjOf edges hub = [] := by
    rw [adjOf, hiso]
    rfl
  rw [findPathPyAux]
  show (if hub = g then some (RouterOutcome.path [hub])
    else
      match pushNeighborsPy tc hub 0 [hub] (dictInsert [] hub 0) (adjOf edges hub) [] with
      | none => some RouterOutcome.raised
      | some pq3 => findPathPyAux edges g tc f pq3 (dictInsert [] hub 0)) = _
  rw [hadjnil]
  rfl

/-- Routing away from a node with an empty adjacency list never evaluates a
heap comparison: the only outcomes, for any fuel, are fuel exhaustion, the
unreachable answer, or (when start equals goal) the degenerate one-node
path. -/
theorem find_path_py_hub_cases (edges : EdgeMap) (hub g : NodeId) (tc : TrafficCounts)
    (hiso : dictLookup edges hub = some []) :
    ∀ fuel, find_path_py edges hub g tc fuel = none ∨
      find_path_py edges hub g tc fuel = some RouterOutcome.unreachable ∨
      find_path_py edges hub g tc fuel = some (RouterOutcome.path [hub]) := by
  intro fuel
  unfold find_path_py
  by_cases hmem : ((dictLookup edges hub).isNone = true ∨ (dictLookup edges g).isNone = true)
  · rw [if_pos hmem]
    exact Or.inr (Or.inl rfl)
  · rw [if_neg hmem]
    cases fuel with
    | zero => exact Or.inl rfl
    | succ f =>
        rw [findPathPyAux_hub_step edges hub g tc hiso f]
        by_cases hgoal : hub = g
        · rw [if_pos hgoal]
          exact Or.inr (Or.inr rfl)
        · rw [if_neg hgoal]
          cases f with
          | zero => exact Or.inl rfl
          | succ f2 =>
              refine Or.inr (Or.inl ?_)
              rw [findPathPyAux]
              rfl

/-- A single horizontal road, a hub 2 coinciding with the road's left node,
and a far-away hub 7 that is left isolated. -/
def tieMap : MapData :=
  { roads := [⟨1, 0, 0, 100, 10, none⟩], hubs := [⟨2, 0, 5⟩, ⟨7, 1000, 1000⟩],
    symbols := [], lights := [] }

/-- The square root on the only inputs `tieMap` feeds into edge weights: the
half-road length squared (`2500 ↦ 50`) and hub 2's zero snap distance
(`0 ↦ 0`), exactly as the Python floats. -/
def sqrtTie (x : ℚ) : ℚ := if x = 2500 then 50 else 0

/-- C9 counterexample: hub `7` of `tieMap` is isolated, yet `find_path` from
the road's mid node towards it raises rather than answering unreachable.
After popping `"r1_L"` (cost `50.0`) the loop pushes the hub-2 entry
`(50.0, 2, ...)` into a heap holding `(50.0, "r1_R", ...)`, and the sift's
tuple comparison hits the exact cost tie and evaluates `2 < "r1_R"` — a
`TypeError` in Python — so the claimed normal termination with the
unreachable result is false of the program. -/
theorem claim_C9_counterexample :
    dictLookup (build_graph sqrtTie tieMap 80).2 (NodeId.int 7) = some []
    ∧ find_path_py (build_graph sqrtTie tieMap 80).2 (NodeId.str "r1_M")
        (NodeId.int 7) [] 10 = some RouterOutcome.raised := by
  constructor
  · decide
  · decide

/-- C9 (amended): a hub left isolated by `build_graph` (its key maps to the
empty adjacency list) never yields a vehicle and never crashes routing on its
own account, but the blanket no-error guarantee holds only away from the hub.
Routing away from the hub evaluates no heap comparison and answers `None`
(unreachable) within two loop iterations; routing towards the hub can never
return a path — the hub is never pushed, by symmetry — so each run answers
`None`, runs out of fuel, or aborts on the `TypeError` that Python's mixed
int/str heap keys raise on an exact cost tie, a pre-existing hazard
independent of the isolated hub; under the tie-totalised comparison the
search moreover terminates with `None` for every fuel beyond an explicit
bound, since all built weights are nonnegative; and a spawn request with the
hub at either endpoint never creates a vehicle and never changes the
simulator state. -/
theorem claim_C9_isolated_hub (sqrtq : ℚ → ℚ) (m : MapData) (snap : ℚ)
    (hq : ∀ x, 0 ≤ sqrtq x)
    (hnodup : (m.hubs.map HubData.hid).Nodup) (hubid : ℤ)
    (hiso : dictLookup (build_graph sqrtq m snap).2 (NodeId.int hubid) = some []) :
    (∀ g, g ≠ NodeId.int hubid → ∀ fuel, 2 ≤ fuel →
      find_path_py (build_graph sqrtq m snap).2 (NodeId.int hubid) g [] fuel =
        some RouterOutcome.unreachable)
    ∧ (∀ s, s ≠ NodeId.int hubid → ∀ fuel p,
      find_path_py (build_graph sqrtq m snap).2 s (NodeId.int hubid) [] fuel ≠
        some (RouterOutcome.path p))
    ∧ (∀ s, s ≠ NodeId.int hubid → ∃ B, ∀ fuel, B ≤ fuel →
      find_path (build_graph sqrtq m snap).2 s (NodeId.int hubid) [] fuel = some none)
    ∧ (∀ st : SimState, st.edges = (build_graph sqrtq m snap).2 →
      ∀ s g rand fuel b st2, (s = NodeId.int hubid ∨ g = NodeId.int hubid) →
      spawn_car_py fuel st s g rand = some (some (b, st2)) → b = false ∧ st2 = st) := by
  obtain ⟨hsym, hwnn⟩ :=
    build_graph_einv (Q := fun w => 0 ≤ w) sqrtq m snap hq hnodup
  have hadjnil : adjOf (build_graph sqrtq m snap).2 (NodeId.int hubid) = [] := by
    rw [adjOf, hiso]
    rfl
  have hnm : ∀ u nb, nb ∈ adjOf (build_graph sqrtq m snap).2 u →
      nb.1 ≠ NodeId.int hubid := by
    intro u nb hmem heq
    obtain ⟨v, w⟩ := nb
    simp only at heq
    subst heq
    have h2 := hsym u _ w hmem
    rw [hadjnil] at h2
    exact List.not_mem_nil _ h2
  have htcnil : TCNNeg [] := by
    intro a b
    exact le_of_eq rfl
  have hhubNone : (dictLookup (build_graph sqrtq m snap).2 (NodeId.int hubid)).isNone = false := by
    rw [hiso]
    rfl
  refine ⟨?_, ?_, ?_, ?_⟩
  · -- the hub as start: explicit two-iteration evaluation, no comparison
    intro g hgne fuel hfuel
    obtain ⟨f, rfl⟩ : ∃ f, fuel = f + 2 := ⟨fuel - 2, by omega⟩
    unfold find_path_py
    by_cases hgk : (dictLookup (build_graph sqrtq m snap).2 g).isNone = true
    · rw [if_pos (Or.inr hgk)]
    · rw [if_neg (by simp [hhubNone, hgk])]
      rw [show f + 2 = (f + 1) + 1 from rfl]
      rw [findPathPyAux_hub_step (build_graph sqrtq m snap).2 (NodeId.int hubid) g []
        hiso (f + 1)]
      rw [if_neg (fun hh => hgne hh.symm)]
      rw [findPathPyAux]
      rfl
  · -- the hub as goal: never a path, by symmetry
    intro s hsne fuel p
    exact find_path_py_no_path_to (build_graph sqrtq m snap).2 (NodeId.int hubid) []
      hnm s hsne fuel p
  · -- the hub as goal, tie-totalised: termination via the potential bound
    intro s hsne
    refine ⟨remPot (build_graph sqrtq m snap).2 [] + 2, ?_⟩
    intro fuel hfuel
    unfold find_path
    by_cases hsk : (dictLookup (build_graph sqrtq m snap).2 s).isNone = true
    · rw [if_pos (Or.inl hsk)]
    · rw [if_neg (by simp [hhubNone, hsk])]
      obtain ⟨k, rfl⟩ : ∃ k, fuel = k + 1 := ⟨fuel - 1, by omega⟩
      have hterm := findPathAux_fuel_enough (build_graph sqrtq m snap).2 (NodeId.int hubid) []
        hwnn htcnil k [(0, s, [s])] [] 0
        (by
          intro e he
          rcases List.mem_singleton.mp he with rfl
          exact le_refl _)
        (by
          intro kv hkv
          exact absurd hkv (List.not_mem_nil _))
        (by
          simp only [List.length_singleton]
          omega)
      have hnp := findPathAux_no_path (build_graph sqrtq m snap).2 (NodeId.int hubid) []
        hnm (k + 1) [(0, s, [s])] []
        (by
          intro e he
          rcases List.mem_singleton.mp he with rfl
          exact hsne)
      cases hval : findPathAux (build_graph sqrtq m snap).2 (NodeId.int hubid) [] (k + 1)
          [(0, s, [s])] [] with
      | none => exact absurd hval hterm
      | some r =>
          cases r with
          | none => rfl
          | some p => exact absurd hval (hnp p)
  · -- spawn with the hub at either endpoint
    intro st hst s g rand fuel b st2 hor hsp
    have hfcase : find_path_py st.edges s g [] fuel = none ∨
        find_path_py st.edges s g [] fuel = some RouterOutcome.raised ∨
        find_path_py st.edges s g [] fuel = some RouterOutcome.unreachable ∨
        find_path_py st.edges s g [] fuel = some (RouterOutcome.path [NodeId.int hubid]) := by
      rcases hor with rfl | rfl
      · rw [hst]
        rcases find_path_py_hub_cases (build_graph sqrtq m snap).2 (NodeId.int hubid) g []
            hiso fuel with h1 | h1 | h1
        · exact Or.inl h1
        · exact Or.inr (Or.inr (Or.inl h1))
        · exact Or.inr (Or.inr (Or.inr h1))
      · by_cases hsh : s = NodeId.int hubid
        · subst hsh
          rw [hst]
          rcases find_path_py_hub_cases (build_graph sqrtq m snap).2 (NodeId.int hubid)
              (NodeId.int hubid) [] hiso fuel with h1 | h1 | h1
          · exact Or.inl h1
          · exact Or.inr (Or.inr (Or.inl h1))
          · exact Or.inr (Or.inr (Or.inr h1))
        · rw [hst]
          cases hf : find_path_py (build_graph sqrtq m snap).2 s (NodeId.int hubid) [] fuel with
          | none => exact Or.inl rfl
          | some r =>
              cases r with
              | raised => exact Or.inr (Or.inl rfl)
              | unreachable => exact Or.inr (Or.inr (Or.inl rfl))
              | path p =>
                  exact absurd hf
                    (find_path_py_no_path_to (build_graph sqrtq m snap).2 (NodeId.int hubid) []
                      hnm s hsh fuel p)
    unfold spawn_car_py at hsp
    rcases hfcase with hf | hf | hf | hf <;> rw [hf] at hsp
    · have hsp2 : (none : Option (Option (Bool × SimState))) = some (some (b, st2)) := hsp
      exact Option.noConfusion hsp2
    · have hsp2 : (some none : Option (Option (Bool × SimState))) = some (some (b, st2)) := hsp
      exact Option.noConfusion (Option.some.inj hsp2)
    · have hsp2 : some (some (false, st)) = some (some (b, st2)) := hsp
      have h2 := Option.some.inj (Option.some.inj hsp2)
      exact ⟨(congrArg Prod.fst h2).symm, (congrArg Prod.snd h2).symm⟩
    · have hsp2 : some (some (false, st)) = some (some (b, st2)) := hsp
      have h2 := Option.some.inj (Option.some.inj hsp2)
      exact ⟨(congrArg Prod.fst h2).symm, (congrArg Prod.snd h2).symm⟩

/-- A map whose hub 7 sits far from its single road and is left isolated. -/
def isoMap : MapData :=
  { roads := [⟨1, 0, 0, 100, 10, none⟩], hubs := [⟨7, 1000, 1000⟩],
    symbols := [], lights := [] }

/-- Witness for C9 (amended): routing away from the isolated hub of the
concrete map answers unreachable under the faithful heap. -/
theorem claim_C9_isolated_hub_witness :
    find_path_py (build_graph (fun _ => 0) isoMap 80).2 (NodeId.int 7)
      (NodeId.str "r1_M") [] 2 = some RouterOutcome.unreachable :=
  (claim_C9_isolated_hub (fun _ => 0) isoMap 80 (fun _ => le_refl 0) (by decide) 7
    (by decide)).1 (NodeId.str "r1_M") (by decide) 2 (by decide)

end TrafficSim
